/-
Verification of the beta-splitting network generator
(`BetaSplittingNetwork.py`).

The Python program builds a rooted binary tree under the beta-splitting
model and then inserts reticulation edges.  We give a shallow embedding:

* a directed graph (`networkx.DiGraph` with edge attributes) becomes a
  `Network`: a finite node set, a finite edge set, and total attribute
  maps returning `Option` values (`.get('length')` semantics);
* randomness is abstracted: every call to the process-wide random source
  is replaced by a value drawn from an explicit stream parameter.  A
  weighted/uniform choice from a finite population is modelled as
  indexing the population by `stream value % size`, so every element of
  the population is obtainable for a suitable stream;
* `nx.has_path` (reflexive directed reachability, computed by search)
  becomes the executable `hasPathB`, proved equivalent to
  `Relation.ReflTransGen` below;
* real-valued numerics (`loggamma`, `np.exp`) are embedded into `ℝ`
  (exact real arithmetic; floating-point overflow is out of scope).
-/
import Mathlib

namespace BetaSplit

/-! ### Directed reachability, executable (models `nx.has_path`) -/

/-- The edge relation of a finite edge set. -/
def erel (E : Finset (ℕ × ℕ)) (a b : ℕ) : Prop := (a, b) ∈ E

instance (E : Finset (ℕ × ℕ)) (a b : ℕ) : Decidable (erel E a b) := by
  unfold erel; infer_instance

/-- One expansion step of the reachable set: add all direct successors. -/
def stepReach (E : Finset (ℕ × ℕ)) (S : Finset ℕ) : Finset ℕ :=
  S ∪ (E.filter (fun e => e.1 ∈ S)).image Prod.snd

/-- Iterated expansion of the reachable set. -/
def reachIter (E : Finset (ℕ × ℕ)) : ℕ → Finset ℕ → Finset ℕ
  | 0, S => S
  | k + 1, S => reachIter E k (stepReach E S)

/-- Executable reachability test, the model of `nx.has_path(G, u, v)`.
`nx.has_path` is reflexive: a node is always reachable from itself. -/
def hasPathB (E : Finset (ℕ × ℕ)) (u v : ℕ) : Bool :=
  v ∈ reachIter E E.card {u}

/-- The propositional reachability relation (`hasPath` of the design). -/
def HasPath (E : Finset (ℕ × ℕ)) (u v : ℕ) : Prop :=
  Relation.ReflTransGen (erel E) u v

lemma subset_stepReach (E : Finset (ℕ × ℕ)) (S : Finset ℕ) :
    S ⊆ stepReach E S := Finset.subset_union_left

lemma stepReach_mono (E : Finset (ℕ × ℕ)) {S T : Finset ℕ} (h : S ⊆ T) :
    stepReach E S ⊆ stepReach E T := by
  unfold stepReach
  apply Finset.union_subset_union h
  apply Finset.image_subset_image
  intro e he
  rcases Finset.mem_filter.mp he with ⟨he1, he2⟩
  exact Finset.mem_filter.mpr ⟨he1, h he2⟩

lemma reachIter_mono (E : Finset (ℕ × ℕ)) (k : ℕ) {S T : Finset ℕ}
    (h : S ⊆ T) : reachIter E k S ⊆ reachIter E k T := by
  induction k generalizing S T with
  | zero => exact h
  | succ k ih => exact ih (stepReach_mono E h)

lemma reachIter_stepReach (E : Finset (ℕ × ℕ)) (k : ℕ) (S : Finset ℕ) :
    reachIter E k (stepReach E S) = stepReach E (reachIter E k S) := by
  induction k generalizing S with
  | zero => rfl
  | succ k ih =>
      show reachIter E k (stepReach E (stepReach E S)) = _
      rw [ih]
      rfl

lemma subset_reachIter (E : Finset (ℕ × ℕ)) (k : ℕ) (S : Finset ℕ) :
    S ⊆ reachIter E k S := by
  induction k generalizing S with
  | zero => exact Finset.Subset.refl S
  | succ k ih =>
      exact Finset.Subset.trans (subset_stepReach E S) (ih (stepReach E S))

lemma reachIter_sound (E : Finset (ℕ × ℕ)) (u : ℕ) :
    ∀ (k : ℕ) (S : Finset ℕ), (∀ w ∈ S, HasPath E u w) →
      ∀ v ∈ reachIter E k S, HasPath E u v := by
  intro k
  induction k with
  | zero => intro S hS v hv; exact hS v hv
  | succ k ih =>
      intro S hS v hv
      refine ih (stepReach E S) ?_ v hv
      intro w hw
      rcases Finset.mem_union.mp hw with h | h
      · exact hS w h
      · rcases Finset.mem_image.mp h with ⟨e, he, hsnd⟩
        rcases Finset.mem_filter.mp he with ⟨heE, hfst⟩
        refine Relation.ReflTransGen.tail (hS e.1 hfst) ?_
        show (e.1, w) ∈ E
        have hpair : (e.1, e.2) ∈ E := by simpa using heE
        rwa [hsnd] at hpair

/-- A set closed under successor expansion contains everything reachable
from its members. -/
lemma closed_reach (E : Finset (ℕ × ℕ)) (S : Finset ℕ)
    (hcl : stepReach E S = S) {u v : ℕ} (hu : u ∈ S)
    (h : HasPath E u v) : v ∈ S := by
  induction h with
  | refl => exact hu
  | tail _ hstep ih =>
      rename_i b c _
      rw [← hcl]
      apply Finset.mem_union_right
      exact Finset.mem_image.mpr ⟨(b, c), Finset.mem_filter.mpr ⟨hstep, ih⟩, rfl⟩

lemma reachIter_bound (E : Finset (ℕ × ℕ)) (u : ℕ) (k : ℕ) :
    reachIter E k {u} ⊆ insert u (E.image Prod.snd) := by
  have step : ∀ S, S ⊆ insert u (E.image Prod.snd) →
      stepReach E S ⊆ insert u (E.image Prod.snd) := by
    intro S hS
    unfold stepReach
    apply Finset.union_subset hS
    intro v hv
    rcases Finset.mem_image.mp hv with ⟨e, he, hsnd⟩
    rcases Finset.mem_filter.mp he with ⟨heE, _⟩
    exact Finset.mem_insert_of_mem (Finset.mem_image.mpr ⟨e, heE, hsnd⟩)
  have main : ∀ (j : ℕ) (S : Finset ℕ), S ⊆ insert u (E.image Prod.snd) →
      reachIter E j S ⊆ insert u (E.image Prod.snd) := by
    intro j
    induction j with
    | zero => intro S hS; exact hS
    | succ j ih => intro S hS; exact ih _ (step S hS)
  exact main k {u} (by simp)

/-- Either the iteration has reached a fixpoint, or the reachable set has
grown to at least `k + 1` elements. -/
lemma reachIter_grow (E : Finset (ℕ × ℕ)) (u : ℕ) :
    ∀ k : ℕ, stepReach E (reachIter E k {u}) = reachIter E k {u} ∨
      k + 1 ≤ (reachIter E k {u}).card := by
  intro k
  induction k with
  | zero =>
      right
      simp [reachIter]
  | succ k ih =>
      have hstep : reachIter E (k + 1) {u} = stepReach E (reachIter E k {u}) := by
        show reachIter E k (stepReach E {u}) = _
        exact reachIter_stepReach E k {u}
      rcases ih with hfix | hcard
      · left
        rw [hstep, hfix, hfix]
      · by_cases heq : stepReach E (reachIter E k {u}) = reachIter E k {u}
        · left
          rw [hstep, heq, heq]
        · right
          have hsub : reachIter E k {u} ⊆ reachIter E (k + 1) {u} := by
            rw [hstep]; exact subset_stepReach E _
          have hne : reachIter E k {u} ≠ reachIter E (k + 1) {u} := by
            rw [hstep]
            intro h
            exact heq h.symm
          have : (reachIter E k {u}).card < (reachIter E (k + 1) {u}).card :=
            Finset.card_lt_card (Finset.ssubset_iff_subset_ne.mpr ⟨hsub, hne⟩)
          omega

/-- At `E.card` iterations the reachable set is a fixpoint. -/
lemma reachIter_fix (E : Finset (ℕ × ℕ)) (u : ℕ) :
    stepReach E (reachIter E E.card {u}) = reachIter E E.card {u} := by
  rcases reachIter_grow E u E.card with hfix | hcard
  · exact hfix
  · have hbound : ∀ k, (reachIter E k {u}).card ≤ E.card + 1 := by
      intro k
      calc (reachIter E k {u}).card
          ≤ (insert u (E.image Prod.snd)).card :=
            Finset.card_le_card (reachIter_bound E u k)
        _ ≤ (E.image Prod.snd).card + 1 := Finset.card_insert_le _ _
        _ ≤ E.card + 1 := by
            have := Finset.card_image_le (s := E) (f := Prod.snd)
            omega
    have hstep : reachIter E (E.card + 1) {u} = stepReach E (reachIter E E.card {u}) := by
      show reachIter E E.card (stepReach E {u}) = _
      exact reachIter_stepReach E E.card {u}
    have hsub : reachIter E E.card {u} ⊆ reachIter E (E.card + 1) {u} := by
      rw [hstep]; exact subset_stepReach E _
    have hle : (reachIter E (E.card + 1) {u}).card ≤ (reachIter E E.card {u}).card := by
      have h1 := hbound (E.card + 1)
      omega
    have : reachIter E (E.card + 1) {u} = reachIter E E.card {u} :=
      (Finset.eq_of_subset_of_card_le hsub hle).symm
    rw [← hstep, this]

/-- Correctness of the executable reachability test. -/
lemma hasPathB_iff (E : Finset (ℕ × ℕ)) (u v : ℕ) :
    hasPathB E u v = true ↔ HasPath E u v := by
  constructor
  · intro h
    have hv : v ∈ reachIter E E.card {u} := by
      have := of_decide_eq_true h
      exact this
    exact reachIter_sound E u E.card {u}
      (by intro w hw; simp at hw; subst hw; exact Relation.ReflTransGen.refl) v hv
  · intro h
    have hu : u ∈ reachIter E E.card {u} :=
      subset_reachIter E E.card {u} (Finset.mem_singleton_self u)
    have hv : v ∈ reachIter E E.card {u} :=
      closed_reach E _ (reachIter_fix E u) hu h
    exact decide_eq_true hv

/-! ### Acyclicity of relations, and adding a single edge to a DAG -/

/-- A relation is acyclic when no element lies on a nonempty cycle.
Invariant I1 of the design is `AcyclicRel (erel edges)`. -/
def AcyclicRel {α : Type} (r : α → α → Prop) : Prop :=
  ∀ a, ¬ Relation.TransGen r a a

/-- Acyclicity of a finite edge set. -/
def Acyclic (E : Finset (ℕ × ℕ)) : Prop := AcyclicRel (erel E)

/-- `r` extended with the single pair `(u, v)`. -/
def addRel {α : Type} (r : α → α → Prop) (u v : α) (a b : α) : Prop :=
  r a b ∨ (a = u ∧ b = v)

lemma acyclicRel_mono {α : Type} {r p : α → α → Prop}
    (hsub : ∀ a b, p a b → r a b) (h : AcyclicRel r) : AcyclicRel p := by
  intro a ha
  exact h a (Relation.TransGen.mono hsub ha)

lemma acyclicRel_congr {α : Type} {r p : α → α → Prop}
    (hiff : ∀ a b, p a b ↔ r a b) (h : AcyclicRel r) : AcyclicRel p :=
  acyclicRel_mono (fun a b hab => (hiff a b).mp hab) h

/-- Decomposition of reflexive-transitive closure after adding one pair:
either the new pair is unused, or the path splits at it. -/
lemma rtg_addRel_elim {α : Type} {r : α → α → Prop} {u v a b : α}
    (h : Relation.ReflTransGen (addRel r u v) a b) :
    Relation.ReflTransGen r a b ∨
      (Relation.ReflTransGen r a u ∧ Relation.ReflTransGen r v b) := by
  induction h with
  | refl => exact Or.inl Relation.ReflTransGen.refl
  | tail _ hstep ih =>
      rename_i c d _
      rcases hstep with hr | ⟨hcu, hdv⟩
      · rcases ih with h1 | ⟨h1, h2⟩
        · exact Or.inl (Relation.ReflTransGen.tail h1 hr)
        · exact Or.inr ⟨h1, Relation.ReflTransGen.tail h2 hr⟩
      · subst hcu; subst hdv
        rcases ih with h1 | ⟨h1, _⟩
        · exact Or.inr ⟨h1, Relation.ReflTransGen.refl⟩
        · exact Or.inr ⟨h1, Relation.ReflTransGen.refl⟩

/-- Adding the pair `(u, v)` to a DAG keeps it acyclic provided there is
no path from `v` back to `u` (the cycle-avoidance criterion). -/
lemma acyclicRel_addRel {α : Type} {r : α → α → Prop} {u v : α}
    (hac : AcyclicRel r) (hnp : ¬ Relation.ReflTransGen r v u) :
    AcyclicRel (addRel r u v) := by
  intro w hw
  rcases Relation.TransGen.head'_iff.mp hw with ⟨z, hstep, hrest⟩
  rcases hstep with hr | ⟨hwu, hzv⟩
  · rcases rtg_addRel_elim hrest with h1 | ⟨h1, h2⟩
    · exact hac w (Relation.TransGen.head' hr h1)
    · exact hnp (Relation.ReflTransGen.trans
        (Relation.ReflTransGen.tail h2 hr) h1)
  · subst hwu; subst hzv
    rcases rtg_addRel_elim hrest with h1 | ⟨h1, _⟩
    · exact hnp h1
    · exact hnp h1

/-- From an element with no outgoing pair, the closure only reaches the
element itself. -/
lemma rtg_no_out {α : Type} {r : α → α → Prop} {x v : α}
    (hx : ∀ z, ¬ r x z) (h : Relation.ReflTransGen r x v) : v = x := by
  rcases Relation.ReflTransGen.cases_head h with h1 | ⟨c, hc, _⟩
  · exact h1.symm
  · exact absurd hc (hx c)

/-- An element with no incoming pair is only reached from itself. -/
lemma rtg_no_in {α : Type} {r : α → α → Prop} {x v : α}
    (hx : ∀ z, ¬ r z x) (h : Relation.ReflTransGen r v x) : v = x := by
  rcases Relation.ReflTransGen.cases_tail h with h1 | ⟨c, _, hc⟩
  · exact h1.symm
  · exact absurd hc (hx c)

/-- A graph admitting a strictly monotone rank function is acyclic.
Used to discharge acyclicity hypotheses on concrete graphs. -/
lemma acyclic_of_rank (E : Finset (ℕ × ℕ)) (f : ℕ → ℕ)
    (hf : ∀ e ∈ E, f e.1 < f e.2) : Acyclic E := by
  intro v hv
  have mono : ∀ a b, Relation.TransGen (erel E) a b → f a < f b := by
    intro a b h
    induction h with
    | single hstep => exact hf _ hstep
    | tail _ hstep ih => exact lt_trans ih (hf _ hstep)
  exact lt_irrefl (f v) (mono v v hv)

/-! ### The data model: directed graph with optional edge attributes

`networkx.DiGraph` with per-edge `length`/`prob` attributes.  Attribute
maps are total functions returning `none` for an absent attribute
(`network[a][b].get('length')` semantics); removing an edge clears its
attributes. -/

structure Network where
  nodes : Finset ℕ
  edges : Finset (ℕ × ℕ)
  length : ℕ × ℕ → Option ℚ
  prob : ℕ × ℕ → Option ℚ

/-- All edge endpoints are recorded as nodes (maintained automatically
by `networkx` on `add_edge`). -/
def EndpointsOk (net : Network) : Prop :=
  ∀ e ∈ net.edges, e.1 ∈ net.nodes ∧ e.2 ∈ net.nodes

instance (net : Network) : Decidable (EndpointsOk net) := by
  unfold EndpointsOk; infer_instance

/-- A fixed linear order on edges, used to turn the edge set into the
list `list(network.edges())` that the random selectors index into.
(The iteration order of `networkx` is abstracted to this fixed order;
random selection composed with the stream reaches every edge either way.) -/
def edgeLe (a b : ℕ × ℕ) : Prop := a.1 < b.1 ∨ (a.1 = b.1 ∧ a.2 ≤ b.2)

instance : DecidableRel edgeLe := by
  intro a b; unfold edgeLe; infer_instance

instance : IsTrans (ℕ × ℕ) edgeLe := by
  constructor; intro a b c hab hbc
  rcases hab with h1 | ⟨h1, h2⟩ <;> rcases hbc with h3 | ⟨h3, h4⟩ <;>
    unfold edgeLe <;> omega

instance : IsAntisymm (ℕ × ℕ) edgeLe := by
  constructor; intro a b hab hba
  rcases a with ⟨a1, a2⟩; rcases b with ⟨b1, b2⟩
  rcases hab with h1 | ⟨h1, h2⟩ <;> rcases hba with h3 | ⟨h3, h4⟩ <;>
    simp_all <;> omega

instance : IsTotal (ℕ × ℕ) edgeLe := by
  constructor; intro a b; unfold edgeLe; omega

/-- Sorted enumeration of an edge multiset, by insertion sort (chosen
over `Finset.sort` because it evaluates inside the kernel). -/
def sortedEdges (s : Multiset (ℕ × ℕ)) : List (ℕ × ℕ) :=
  Quot.liftOn s (fun l => l.insertionSort edgeLe) (fun l1 l2 h =>
    List.eq_of_perm_of_sorted
      ((List.perm_insertionSort edgeLe l1).trans
        (h.trans (List.perm_insertionSort edgeLe l2).symm))
      (List.sorted_insertionSort edgeLe l1)
      (List.sorted_insertionSort edgeLe l2))

lemma mem_sortedEdges (s : Multiset (ℕ × ℕ)) (a : ℕ × ℕ) :
    a ∈ sortedEdges s ↔ a ∈ s :=
  Quot.inductionOn s fun l => (List.perm_insertionSort edgeLe l).mem_iff

lemma length_sortedEdges (s : Multiset (ℕ × ℕ)) :
    (sortedEdges s).length = Multiset.card s :=
  Quot.inductionOn s fun l => (List.perm_insertionSort edgeLe l).length_eq

/-- `list(network.edges())`. -/
def edgeList (net : Network) : List (ℕ × ℕ) := sortedEdges net.edges.val

/-- `list(network.successors(v))`. -/
def succList (net : Network) (v : ℕ) : List ℕ :=
  (sortedEdges (net.edges.filter (fun e => e.1 = v)).val).map Prod.snd

/-- `list(network.predecessors(v))`. -/
def predList (net : Network) (v : ℕ) : List ℕ :=
  (sortedEdges (net.edges.filter (fun e => e.2 = v)).val).map Prod.fst

/-- Out-degree of a node. -/
def outdeg (E : Finset (ℕ × ℕ)) (v : ℕ) : ℕ :=
  (E.filter (fun e => e.1 = v)).card

/-- In-degree of a node. -/
def indeg (E : Finset (ℕ × ℕ)) (v : ℕ) : ℕ :=
  (E.filter (fun e => e.2 = v)).card

/-! ### RandomSplitSampler (`a_n`, `computeProb`, and the draw)

The source computes the split weights with `scipy.special.loggamma` and
`np.exp` on floats; we embed these into exact real arithmetic. -/

/-- `loggamma` on the positive reals. -/
noncomputable def lgamma (x : ℝ) : ℝ := Real.log (Real.Gamma x)

/-- The normalizing constant of Aldous' Equation (2); the source
deliberately returns the constant `1` instead of computing it. -/
def a_n (_beta : ℝ) : ℝ := 1

/-- `computeProb(n, beta)`: the weight vector `q_1 .. q_{n-1}`,
`q_i = exp(lgamma(beta+i+1) + lgamma(beta+n-i+1)
           - (a_n(beta) + lgamma(i+1) + lgamma(n-i+1)))`. -/
noncomputable def computeProb (n : ℕ) (beta : ℝ) : List ℝ :=
  (List.range (n - 1)).map (fun j : ℕ =>
    let i : ℝ := (j : ℝ) + 1
    Real.exp ((lgamma (beta + i + 1) + lgamma (beta + (n : ℝ) - i + 1)) -
      (a_n beta + lgamma (i + 1) + lgamma ((n : ℝ) - i + 1))))

/-- The draw `random.choices(population=list(range(1,n)), weights=q_n)[0]`.
`random.choices` returns an element of the population; which one depends
on the weights and the random stream, abstracted here into the stream
value `k` selecting an index into the population `[1, .., n-1]`.  The
weights (exponentials, hence positive) only shape the distribution,
never the set of possible outcomes. -/
def sampleSplit (n : ℕ) (k : ℕ) : ℕ := 1 + k % (n - 1)

/-! ### TreeBuilder (`simulateBetaSplitting`)

The builder state carries the growing edge/node sets, the pending queue
and the two id counters.  The Python queue is a stack (`list.append` /
`list.pop`); it is modelled head-first, so `push = cons`, `pop = head`.
The queue stores `(node id, label)` pairs: in the source the label is
stored as a node attribute that is written exactly once (when the node
is created and enqueued) and read exactly once (when it is popped), so
carrying it in the queue is an equivalent rendering. -/

structure BState where
  nodes : Finset ℕ
  edges : Finset (ℕ × ℕ)
  queue : List (ℕ × ℕ)
  lastInternal : ℕ
  lastLeaf : ℕ
  t : ℕ

/-- The body of `for new_n in [split, n_node-split]`: attach one child of
label `lbl` to `parent`, allocating a leaf id or an internal id. -/
def addChild (st : BState) (parent lbl : ℕ) : BState :=
  if lbl = 1 then
    { st with nodes := insert (st.lastLeaf + 1) st.nodes,
              edges := insert (parent, st.lastLeaf + 1) st.edges,
              lastLeaf := st.lastLeaf + 1 }
  else
    { st with nodes := insert (st.lastInternal + 1) st.nodes,
              edges := insert (parent, st.lastInternal + 1) st.edges,
              queue := (st.lastInternal + 1, lbl) :: st.queue,
              lastInternal := st.lastInternal + 1 }

/-- One iteration of the `while queue:` loop. -/
def simStep (rand : ℕ → ℕ) (st : BState) : BState :=
  match st.queue with
  | [] => st
  | (v, m) :: rest =>
    if 1 < m then
      let split := sampleSplit m (rand st.t)
      let st1 := { st with queue := rest, t := st.t + 1 }
      addChild (addChild st1 v split) v (m - split)
    else { st with queue := rest }

/-- The `while queue:` loop, driven by fuel.  A label-`m` subtree costs
`m - 1` pops, so fuel `n` suffices for the whole build (proved below). -/
def simLoop (rand : ℕ → ℕ) : ℕ → BState → BState
  | 0, st => st
  | fuel + 1, st =>
    match st.queue with
    | [] => st
    | _ :: _ => simLoop rand fuel (simStep rand st)

/-- Initial builder state: the root `n+1` with label `n`. -/
def initState (n : ℕ) : BState :=
  { nodes := {n + 1}, edges := ∅, queue := [(n + 1, n)],
    lastInternal := n + 1, lastLeaf := 0, t := 0 }

/-- `simulateBetaSplitting(n, beta)`.  The `beta` parameter only enters
the weighted draw, which is abstracted into the stream `rand` (see
`sampleSplit`), so it is unused in the embedded computation. -/
def simulateBetaSplitting (n : ℕ) (_beta : ℝ) (rand : ℕ → ℕ) : Network :=
  let final := simLoop rand n (initState n)
  { nodes := final.nodes, edges := final.edges,
    length := fun _ => none, prob := fun _ => none }

/-! ### NetworkMutator (`AddEdgeBetween`) and the edge selectors -/

/-- The first fresh node id, `max(network.nodes()) + 1`. -/
def freshX (net : Network) : ℕ := net.nodes.sup id + 1

/-- The second fresh node id, `max(network.nodes()) + 2`. -/
def freshY (net : Network) : ℕ := net.nodes.sup id + 2

/-- The cycle-avoidance test `nx.has_path(network, edge2[1], edge1[0])`. -/
def swapFlag (net : Network) (e1 e2 : ℕ × ℕ) : Bool :=
  hasPathB net.edges e2.2 e1.1

/-- The edge pair after the conditional swap
`if nx.has_path(network, edge2[1], edge1[0]): edge1, edge2 = edge2, edge1`. -/
def pairAfterSwap (net : Network) (e1 e2 : ℕ × ℕ) : (ℕ × ℕ) × (ℕ × ℕ) :=
  if swapFlag net e1 e2 then (e2, e1) else (e1, e2)

/-- `AddEdgeBetween(network, edge1, edge2, new_nodes)`.

`u1`, `u2` stand for the two `random.random()` draws used to split the
edge lengths (each consumed only when the corresponding length exists).
Steps, following the source line by line: determine the two fresh node
ids from `max(network.nodes())` when `new_nodes` is `None`; swap
`edge1`/`edge2` when `nx.has_path(network, edge2[1], edge1[0])`; read
the four attributes; `remove_edges_from([edge1, edge2])` (this clears
their attributes); `add_edges_from` of the five replacement edges; then
the four conditional attribute-redistribution blocks. -/
def AddEdgeBetween (net : Network) (edge1 edge2 : ℕ × ℕ) (u1 u2 : ℚ)
    (newNodes : Option (ℕ × ℕ)) : Network :=
  let nn := match newNodes with
    | none => (freshX net, freshY net)
    | some q => q
  let a1 := (pairAfterSwap net edge1 edge2).1
  let a2 := (pairAfterSwap net edge1 edge2).2
  let X := nn.1
  let Y := nn.2
  let length1 := net.length a1
  let prob1 := net.prob a1
  let length2 := net.length a2
  let prob2 := net.prob a2
  let edges' := insert (a1.1, X) (insert (X, a1.2) (insert (a2.1, Y)
      (insert (Y, a2.2) (insert (X, Y) ((net.edges.erase a1).erase a2)))))
  let nodes' := insert a1.1 (insert X (insert a1.2 (insert a2.1
      (insert Y (insert a2.2 net.nodes)))))
  let len0 : ℕ × ℕ → Option ℚ :=
    fun e => if e = a1 ∨ e = a2 then none else net.length e
  let pr0 : ℕ × ℕ → Option ℚ :=
    fun e => if e = a1 ∨ e = a2 then none else net.prob e
  let len1 := match length1 with
    | some L => fun e => if e = (X, a1.2) then some (L - u1 * L)
        else if e = (a1.1, X) then some (u1 * L) else len0 e
    | none => len0
  let pr1 := match prob1 with
    | some pv => fun e => if e = (X, a1.2) then some pv else pr0 e
    | none => pr0
  let len2 := match length2 with
    | some L => fun e => if e = (Y, a2.2) then some (L - u2 * L)
        else if e = (a2.1, Y) then some (u2 * L) else len1 e
    | none => len1
  let pr2 := match prob2 with
    | some pv => fun e => if e = (Y, a2.2) then some pv else pr1 e
    | none => pr1
  { nodes := nodes', edges := edges', length := len2, prob := pr2 }

/-- `random.choice` / indexed selection from a list: the stream value
`k` selects position `k % length` (junk default on an empty list, never
reached under the invariants proved below). -/
def pickD {α : Type} (l : List α) (k : ℕ) (d : α) : α := l.getD (k % l.length) d

/-- `AddEdgeUniform(network)`: two edge indices drawn independently and
uniformly (NumPy `choice` with replacement — the two draws may
coincide), then `AddEdgeBetween` on the selected edges.  `i0`, `i1` are
the two stream draws. -/
def AddEdgeUniform (net : Network) (i0 i1 : ℕ) (u1 u2 : ℚ)
    (newNodes : Option (ℕ × ℕ)) : Network :=
  let es := edgeList net
  AddEdgeBetween net (pickD es i0 (0, 0)) (pickD es i1 (0, 0)) u1 u2 newNodes

/-- `list(network.successors(v)) + list(network.predecessors(v))`. -/
def neighborList (net : Network) (v : ℕ) : List ℕ :=
  succList net v ++ predList net v

/-- The random walk of `AddEdgeLocal`: each iteration moves to a random
undirected neighbour, then stops with probability `stop_prob`.  `coin t`
models `random.random() < stop_prob` at time `t`; the fuel bounds the
number of moves (`max_steps`, or a finite horizon for the unbounded
`max_steps=None` loop).  Returns the final `(previous, current)` pair
and the consumed stream position. -/
def walk (net : Network) (rand : ℕ → ℕ) (coin : ℕ → Bool) :
    ℕ → ℕ → ℕ → ℕ → (ℕ × ℕ) × ℕ
  | 0, t, prev, cur => ((prev, cur), t)
  | fuel + 1, t, _, cur =>
    let next := pickD (neighborList net cur) (rand t) 0
    if coin t then ((cur, next), t + 1)
    else walk net rand coin fuel (t + 1) cur next

/-- The initial `(previous_node, current_node)` of one try:
`previous_node = random.choice(edge1)`, `current_node` the other
endpoint (`edge1[0]`, corrected to `edge1[1]` when it equals
`previous_node`). -/
def walkStart (net : Network) (rand : ℕ → ℕ) (t : ℕ) : ℕ × ℕ :=
  let edge1 := pickD (edgeList net) (rand t) (0, 0)
  let pv := if rand (t + 1) % 2 = 0 then edge1.1 else edge1.2
  let cur := if edge1.1 = pv then edge1.2 else edge1.1
  (pv, cur)

/-- One try of the `AddEdgeLocal` loop: pick `edge1`, orient it at
random, random-walk to a final pair, and read off `edge2` (the pair if
it is a directed edge, else the reversed pair). -/
def attempt (net : Network) (rand : ℕ → ℕ) (coin : ℕ → Bool)
    (stepFuel t : ℕ) : ((ℕ × ℕ) × (ℕ × ℕ)) × ℕ :=
  let edge1 := pickD (edgeList net) (rand t) (0, 0)
  let s := walkStart net rand t
  let w := walk net rand coin stepFuel (t + 2) s.1 s.2
  let e2a := (w.1.1, w.1.2)
  let edge2 := if e2a ∈ net.edges then e2a else (w.1.2, w.1.1)
  ((edge1, edge2), w.2)

/-- The retry loop of `AddEdgeLocal` with `rem` tries remaining: stop as
soon as `edge1 ≠ edge2`; when the tries are exhausted the loop simply
exits with the LAST examined pair (which is then still passed on to
`AddEdgeBetween` — there is no failure path in the source).  The
`rem = 0` base case corresponds to `max_tries = 0`, on which the source
would crash on unbound locals; the junk value is exercised by no claim. -/
def tryLoop (net : Network) (rand : ℕ → ℕ) (coin : ℕ → Bool)
    (stepFuel : ℕ) : ℕ → ℕ → (ℕ × ℕ) × (ℕ × ℕ)
  | 0, _ => ((0, 0), (0, 0))
  | rem + 1, t =>
    let a := attempt net rand coin stepFuel t
    if a.1.1 ≠ a.1.2 then a.1
    else if rem = 0 then a.1
    else tryLoop net rand coin stepFuel rem a.2

/-- `AddEdgeLocal(network, stop_prob, max_steps, max_tries)`: run the
retry loop (`maxTries` tries), then unconditionally call
`AddEdgeBetween` on whatever pair the loop ended with. -/
def AddEdgeLocal (net : Network) (rand : ℕ → ℕ) (coin : ℕ → Bool)
    (stepFuel maxTries : ℕ) (u1 u2 : ℚ)
    (newNodes : Option (ℕ × ℕ)) : Network :=
  let p := tryLoop net rand coin stepFuel maxTries 0
  AddEdgeBetween net p.1 p.2 u1 u2 newNodes

/-- `GenerateNetwork(tree, r, method)`: `r` successive insertions,
uniform when `method = None`, local otherwise (the stop probability
itself is abstracted into the `coin` stream).  Insertion `i` consumes
stream slots `2i`, `2i+1` (uniform) or the `Nat.pair i ·` substream
(local; `tryFuel + 1` tries models the unbounded `max_tries = None`
loop, which always runs at least one try). -/
def GenerateNetwork (net : Network) (r : ℕ) (method : Option ℚ)
    (rand : ℕ → ℕ) (randQ : ℕ → ℚ) (coin : ℕ → Bool)
    (stepFuel tryFuel : ℕ) : Network :=
  match r with
  | 0 => net
  | r + 1 =>
    let prev := GenerateNetwork net r method rand randQ coin stepFuel tryFuel
    match method with
    | none => AddEdgeUniform prev (rand (2 * r)) (rand (2 * r + 1))
        (randQ (2 * r)) (randQ (2 * r + 1)) none
    | some _ => AddEdgeLocal prev (fun k => rand (Nat.pair r k))
        (fun k => coin (Nat.pair r k)) stepFuel (tryFuel + 1)
        (randQ (2 * r)) (randQ (2 * r + 1)) none

/-- One line of the `el` (edge list) output: `"<parent> <child>"`. -/
def edgeLine (e : ℕ × ℕ) : String := toString e.1 ++ " " ++ toString e.2

/-- `OutputNetwork(network, "el")`, read as an order-insensitive set of
lines (the `\r\n`-joined iteration order of `networkx` is abstracted). -/
def OutputNetworkEL (net : Network) : Finset String :=
  net.edges.image edgeLine

/-! ### Claim C5: the split-weight vector and the draw -/

lemma computeProb_getD (n : ℕ) (beta : ℝ) {j : ℕ} (hj : j < n - 1) :
    (computeProb n beta).getD j 0 =
      Real.exp ((lgamma (beta + ((j : ℝ) + 1) + 1) +
          lgamma (beta + (n : ℝ) - ((j : ℝ) + 1) + 1)) -
        (a_n beta + lgamma (((j : ℝ) + 1) + 1) +
          lgamma ((n : ℝ) - ((j : ℝ) + 1) + 1))) := by
  unfold computeProb
  rw [List.getD_eq_getElem?_getD, List.getElem?_map, List.getElem?_range hj]
  rfl

/-- C5: for every `n ≥ 2` and every (finite real) `beta`, `computeProb`
returns exactly `n-1` weights, every weight is non-negative (indeed the
value of a real exponential), each weight equals the constant
`exp(-1)` — a uniform rescaling coming from the unexpanded `a_n` — times
`exp(lgamma(beta+i+1) + lgamma(beta+n-i+1) - lgamma(i+1) - lgamma(n-i+1))`
for `i = j+1`, and the draw returns an index `i` with `1 ≤ i ≤ n-1`. -/
theorem computeProb_spec (n : ℕ) (beta : ℝ) (hn : 2 ≤ n) :
    (computeProb n beta).length = n - 1 ∧
    (∀ w ∈ computeProb n beta, 0 ≤ w) ∧
    (∃ c : ℝ, 0 < c ∧ ∀ j, j < n - 1 →
      (computeProb n beta).getD j 0 =
        c * Real.exp (lgamma (beta + ((j : ℝ) + 1) + 1) +
          lgamma (beta + (n : ℝ) - ((j : ℝ) + 1) + 1) -
          lgamma (((j : ℝ) + 1) + 1) -
          lgamma ((n : ℝ) - ((j : ℝ) + 1) + 1))) ∧
    (∀ k, 1 ≤ sampleSplit n k ∧ sampleSplit n k ≤ n - 1) := by
  refine ⟨?_, ?_, ?_, ?_⟩
  · unfold computeProb
    simp
  · intro w hw
    unfold computeProb at hw
    rcases List.mem_map.mp hw with ⟨j, _, hj⟩
    rw [← hj]
    exact le_of_lt (Real.exp_pos _)
  · refine ⟨Real.exp (-1), Real.exp_pos _, ?_⟩
    intro j hj
    rw [computeProb_getD n beta hj]
    rw [← Real.exp_add]
    congr 1
    unfold a_n
    ring
  · intro k
    constructor
    · unfold sampleSplit; omega
    · unfold sampleSplit
      have : k % (n - 1) < n - 1 := Nat.mod_lt _ (by omega)
      omega

/-- Witness for C5 at `n = 3`, `beta = 0`. -/
theorem computeProb_spec_witness :
    2 ≤ 3 ∧
    ((computeProb 3 0).length = 3 - 1 ∧
     (∀ w ∈ computeProb 3 0, 0 ≤ w) ∧
     (∃ c : ℝ, 0 < c ∧ ∀ j, j < 3 - 1 →
       (computeProb 3 0).getD j 0 =
         c * Real.exp (lgamma (0 + ((j : ℝ) + 1) + 1) +
           lgamma (0 + ((3 : ℕ) : ℝ) - ((j : ℝ) + 1) + 1) -
           lgamma (((j : ℝ) + 1) + 1) -
           lgamma (((3 : ℕ) : ℝ) - ((j : ℝ) + 1) + 1))) ∧
     (∀ k, 1 ≤ sampleSplit 3 k ∧ sampleSplit 3 k ≤ 3 - 1)) :=
  ⟨by norm_num, computeProb_spec 3 0 (by norm_num)⟩

/-! ### Claim C8: the concrete `tipCount = 2, beta = 0, r = 0` run -/

/-- C8: for `tipCount = 2` the run is deterministic whatever the random
stream (the only split of a label-2 node is `1|1`): the tree has nodes
`{1, 2, 3}` with root `3` (in-degree 0; leaves allocated first, root at
`n+1`) and leaves `1`, `2` (out-degree 0), zero reticulations leave it
unchanged, and the edge-list output as a set of lines is
`{"3 1", "3 2"}`.  Stated for every `beta` and every stream. -/
theorem concreteRun_spec (beta : ℝ) (rand : ℕ → ℕ) (randQ : ℕ → ℚ)
    (coin : ℕ → Bool) (sf tf : ℕ) :
    (simulateBetaSplitting 2 beta rand).nodes = {1, 2, 3} ∧
    (simulateBetaSplitting 2 beta rand).edges = {(3, 1), (3, 2)} ∧
    indeg (simulateBetaSplitting 2 beta rand).edges 3 = 0 ∧
    indeg (simulateBetaSplitting 2 beta rand).edges 1 = 1 ∧
    indeg (simulateBetaSplitting 2 beta rand).edges 2 = 1 ∧
    outdeg (simulateBetaSplitting 2 beta rand).edges 1 = 0 ∧
    outdeg (simulateBetaSplitting 2 beta rand).edges 2 = 0 ∧
    GenerateNetwork (simulateBetaSplitting 2 beta rand) 0 none rand randQ
      coin sf tf = simulateBetaSplitting 2 beta rand ∧
    OutputNetworkEL (simulateBetaSplitting 2 beta rand) = {"3 1", "3 2"} := by
  have h0 : sampleSplit 2 (rand 0) = 1 := by
    unfold sampleSplit
    omega
  have hfin : simulateBetaSplitting 2 beta rand =
      { nodes := {2, 1, 3}, edges := {(3, 2), (3, 1)},
        length := fun _ => none, prob := fun _ => none } := by
    unfold simulateBetaSplitting initState
    rw [show (2 : ℕ) = 1 + 1 from rfl]
    unfold simLoop simStep
    simp [h0, addChild, simLoop]
  refine ⟨?_, ?_, ?_, ?_, ?_, ?_, ?_, rfl, ?_⟩ <;> rw [hfin] <;> decide

/-! ### Acyclicity of a double subdivision plus connector -/

set_option maxHeartbeats 1000000 in
/-- The five-edge replacement of `AddEdgeBetween` keeps the graph
acyclic, provided the fresh nodes `X`, `Y` are untouched by `E` and
there is no path from `a2`'s child back to `a1`'s parent (which the
conditional swap establishes).  Stated for the literal edge set built by
`AddEdgeBetween`. -/
lemma five_insert_acyclic (E : Finset (ℕ × ℕ)) (a1 a2 : ℕ × ℕ) (X Y : ℕ)
    (hac : Acyclic E) (ha1 : a1 ∈ E) (ha2 : a2 ∈ E)
    (hXs : ∀ z, (X, z) ∉ E) (hXt : ∀ z, (z, X) ∉ E)
    (hYs : ∀ z, (Y, z) ∉ E) (hYt : ∀ z, (z, Y) ∉ E)
    (hXY : X ≠ Y)
    (hX1 : X ≠ a1.1) (hX2 : X ≠ a1.2) (hX3 : X ≠ a2.1) (hX4 : X ≠ a2.2)
    (hY1 : Y ≠ a1.1) (hY2 : Y ≠ a1.2) (hY3 : Y ≠ a2.1) (hY4 : Y ≠ a2.2)
    (hkey : ¬ Relation.ReflTransGen (erel E) a2.2 a1.1) :
    Acyclic (insert (a1.1, X) (insert (X, a1.2) (insert (a2.1, Y)
      (insert (Y, a2.2) (insert (X, Y) ((E.erase a1).erase a2)))))) := by
  set R0 : ℕ → ℕ → Prop := erel ((E.erase a1).erase a2) with hR0def
  set R1 : ℕ → ℕ → Prop := addRel R0 a1.1 X with hR1def
  set R2 : ℕ → ℕ → Prop := addRel R1 X a1.2 with hR2def
  set R3 : ℕ → ℕ → Prop := addRel R2 a2.1 Y with hR3def
  set R4 : ℕ → ℕ → Prop := addRel R3 Y a2.2 with hR4def
  set R5 : ℕ → ℕ → Prop := addRel R4 X Y with hR5def
  -- pure-`E` facts
  have hmono : ∀ {a b : ℕ}, Relation.ReflTransGen R0 a b →
      Relation.ReflTransGen (erel E) a b :=
    fun h => Relation.ReflTransGen.mono
      (fun a b hab => Finset.mem_of_mem_erase (Finset.mem_of_mem_erase hab)) h
  have hedge1 : erel E a1.1 a1.2 := by
    show (a1.1, a1.2) ∈ E
    simpa using ha1
  have hedge2 : erel E a2.1 a2.2 := by
    show (a2.1, a2.2) ∈ E
    simpa using ha2
  have hcyc1 : ¬ Relation.ReflTransGen (erel E) a1.2 a1.1 :=
    fun h => hac a1.1 (Relation.TransGen.head' hedge1 h)
  have hcyc2 : ¬ Relation.ReflTransGen (erel E) a2.2 a2.1 :=
    fun h => hac a2.1 (Relation.TransGen.head' hedge2 h)
  -- freshness at the various levels
  have hR0Xout : ∀ z, ¬ R0 X z :=
    fun z h => hXs z (Finset.mem_of_mem_erase (Finset.mem_of_mem_erase h))
  have hR0Xin : ∀ z, ¬ R0 z X :=
    fun z h => hXt z (Finset.mem_of_mem_erase (Finset.mem_of_mem_erase h))
  have hR0Yout : ∀ z, ¬ R0 Y z :=
    fun z h => hYs z (Finset.mem_of_mem_erase (Finset.mem_of_mem_erase h))
  have hR0Yin : ∀ z, ¬ R0 z Y :=
    fun z h => hYt z (Finset.mem_of_mem_erase (Finset.mem_of_mem_erase h))
  have hR1Yout : ∀ z, ¬ R1 Y z := by
    intro z h
    rcases h with h | ⟨h, _⟩
    · exact hR0Yout z h
    · exact hY1 h
  have hR2Yout : ∀ z, ¬ R2 Y z := by
    intro z h
    rcases h with h | ⟨h, _⟩
    · exact hR1Yout z h
    · exact hXY h.symm
  have hR3Yout : ∀ z, ¬ R3 Y z := by
    intro z h
    rcases h with h | ⟨h, _⟩
    · exact hR2Yout z h
    · exact hY3 h
  have hR1Yin : ∀ z, ¬ R1 z Y := by
    intro z h
    rcases h with h | ⟨_, h⟩
    · exact hR0Yin z h
    · exact hXY h.symm
  have hR2Yin : ∀ z, ¬ R2 z Y := by
    intro z h
    rcases h with h | ⟨_, h⟩
    · exact hR1Yin z h
    · exact hY2 h
  -- a path `a2.2 ⇝ X` inside `R1` contradicts `hkey`
  have hR1_to_X : ¬ Relation.ReflTransGen R1 a2.2 X := by
    intro h
    rcases rtg_addRel_elim h with h | ⟨h, _⟩
    · exact hX4 (rtg_no_in hR0Xin h).symm
    · exact hkey (hmono h)
  -- the five successive single-edge extensions
  have hA0 : AcyclicRel R0 :=
    acyclicRel_mono
      (fun a b hab => Finset.mem_of_mem_erase (Finset.mem_of_mem_erase hab)) hac
  have hA1 : AcyclicRel R1 := by
    refine acyclicRel_addRel hA0 ?_
    intro h
    exact hX1 (rtg_no_out hR0Xout h).symm
  have hA2 : AcyclicRel R2 := by
    refine acyclicRel_addRel hA1 ?_
    intro h
    rcases rtg_addRel_elim h with h | ⟨h, _⟩
    · exact hX2 (rtg_no_in hR0Xin h).symm
    · exact hcyc1 (hmono h)
  have hA3 : AcyclicRel R3 := by
    refine acyclicRel_addRel hA2 ?_
    intro h
    exact hY3 (rtg_no_out hR2Yout h).symm
  have hA4 : AcyclicRel R4 := by
    refine acyclicRel_addRel hA3 ?_
    intro h
    rcases rtg_addRel_elim h with h | ⟨h5, _⟩
    · exact hY4 (rtg_no_in hR2Yin h).symm
    · -- `h5 : RTG R2 a2.2 a2.1`
      rcases rtg_addRel_elim h5 with h6 | ⟨h6, _⟩
      · rcases rtg_addRel_elim h6 with h7 | ⟨_, h7⟩
        · exact hcyc2 (hmono h7)
        · exact hX3 (rtg_no_out hR0Xout h7).symm
      · exact hR1_to_X h6
  have hA5 : AcyclicRel R5 := by
    refine acyclicRel_addRel hA4 ?_
    intro h
    rcases rtg_addRel_elim h with h9 | ⟨_, h10⟩
    · exact hXY (rtg_no_out hR3Yout h9)
    · -- `h10 : RTG R3 a2.2 X`
      rcases rtg_addRel_elim h10 with h11 | ⟨_, h13⟩
      · rcases rtg_addRel_elim h11 with h12 | ⟨h12, _⟩
        · exact hR1_to_X h12
        · exact hR1_to_X h12
      · exact hXY (rtg_no_out hR2Yout h13)
  -- transfer back to the literal edge set
  refine acyclicRel_congr ?_ hA5
  intro a b
  show (a, b) ∈ _ ↔ R5 a b
  rw [hR5def, hR4def, hR3def, hR2def, hR1def, hR0def]
  simp only [Finset.mem_insert, addRel, erel, Prod.ext_iff, Prod.mk.injEq]
  tauto

/-! ### Structural description of a single insertion -/

lemma freshX_not_mem (net : Network) : freshX net ∉ net.nodes := by
  intro h
  have := Finset.le_sup (f := id) h
  simp only [id_eq] at this
  unfold freshX at this
  omega

lemma freshY_not_mem (net : Network) : freshY net ∉ net.nodes := by
  intro h
  have := Finset.le_sup (f := id) h
  simp only [id_eq] at this
  unfold freshY at this
  omega

lemma pairAfterSwap_mem (net : Network) {e1 e2 : ℕ × ℕ}
    (h1 : e1 ∈ net.edges) (h2 : e2 ∈ net.edges) :
    (pairAfterSwap net e1 e2).1 ∈ net.edges ∧
      (pairAfterSwap net e1 e2).2 ∈ net.edges := by
  unfold pairAfterSwap
  by_cases h : swapFlag net e1 e2 <;> simp [h, h1, h2]

lemma pairAfterSwap_ne (net : Network) {e1 e2 : ℕ × ℕ} (hne : e1 ≠ e2) :
    (pairAfterSwap net e1 e2).1 ≠ (pairAfterSwap net e1 e2).2 := by
  unfold pairAfterSwap
  by_cases h : swapFlag net e1 e2 <;> simp [h, hne, Ne.symm hne]

/-- The edge set produced by `AddEdgeBetween` with `new_nodes = None`. -/
lemma AddEdgeBetween_none_edges (net : Network) (e1 e2 : ℕ × ℕ) (u1 u2 : ℚ) :
    (AddEdgeBetween net e1 e2 u1 u2 none).edges =
      insert ((pairAfterSwap net e1 e2).1.1, freshX net)
        (insert (freshX net, (pairAfterSwap net e1 e2).1.2)
          (insert ((pairAfterSwap net e1 e2).2.1, freshY net)
            (insert (freshY net, (pairAfterSwap net e1 e2).2.2)
              (insert (freshX net, freshY net)
                ((net.edges.erase (pairAfterSwap net e1 e2).1).erase
                  (pairAfterSwap net e1 e2).2))))) := rfl

/-- The node set produced by `AddEdgeBetween` with `new_nodes = None`. -/
lemma AddEdgeBetween_none_nodes (net : Network) (e1 e2 : ℕ × ℕ) (u1 u2 : ℚ) :
    (AddEdgeBetween net e1 e2 u1 u2 none).nodes =
      insert (pairAfterSwap net e1 e2).1.1 (insert (freshX net)
        (insert (pairAfterSwap net e1 e2).1.2
          (insert (pairAfterSwap net e1 e2).2.1 (insert (freshY net)
            (insert (pairAfterSwap net e1 e2).2.2 net.nodes))))) := rfl

/-- After the conditional swap there is never a path from the second
edge's child back to the first edge's parent: the swap condition
`nx.has_path(network, edge2[1], edge1[0])` rules it out directly when
false, and acyclicity rules it out when true. -/
lemma pairAfterSwap_key (net : Network) {e1 e2 : ℕ × ℕ}
    (hac : Acyclic net.edges) (h1 : e1 ∈ net.edges) (h2 : e2 ∈ net.edges) :
    ¬ Relation.ReflTransGen (erel net.edges)
      (pairAfterSwap net e1 e2).2.2 (pairAfterSwap net e1 e2).1.1 := by
  have hedge1 : erel net.edges e1.1 e1.2 := by
    show (e1.1, e1.2) ∈ net.edges
    simpa using h1
  have hedge2 : erel net.edges e2.1 e2.2 := by
    show (e2.1, e2.2) ∈ net.edges
    simpa using h2
  unfold pairAfterSwap
  by_cases hsw : swapFlag net e1 e2
  · simp only [hsw, if_true]
    have hpath : Relation.ReflTransGen (erel net.edges) e2.2 e1.1 :=
      (hasPathB_iff net.edges e2.2 e1.1).mp hsw
    intro hp
    exact hac e2.1 (Relation.TransGen.head' hedge2
      (Relation.ReflTransGen.trans (Relation.ReflTransGen.tail hpath hedge1) hp))
  · simp only [hsw, if_false]
    intro hp
    exact hsw ((hasPathB_iff net.edges e2.2 e1.1).mpr hp)

set_option maxHeartbeats 1000000 in
/-- Combined effect of one `AddEdgeBetween` call with `new_nodes=None`
on a well-formed graph: the two fresh nodes are added; the node count
grows by 2; the edge count grows by 3 for a distinct pair and by 4 when
the same edge is passed twice (one removal, five additions); endpoints
stay recorded; the edge set stays nonempty; and acyclicity is
preserved. -/
lemma AddEdgeBetween_spec (net : Network) (e1 e2 : ℕ × ℕ) (u1 u2 : ℚ)
    (hend : EndpointsOk net) (h1 : e1 ∈ net.edges) (h2 : e2 ∈ net.edges) :
    (AddEdgeBetween net e1 e2 u1 u2 none).nodes =
        net.nodes ∪ {freshX net, freshY net} ∧
    (AddEdgeBetween net e1 e2 u1 u2 none).nodes.card = net.nodes.card + 2 ∧
    (AddEdgeBetween net e1 e2 u1 u2 none).edges.card =
        net.edges.card + (if e1 = e2 then 4 else 3) ∧
    EndpointsOk (AddEdgeBetween net e1 e2 u1 u2 none) ∧
    (AddEdgeBetween net e1 e2 u1 u2 none).edges.Nonempty ∧
    (Acyclic net.edges → Acyclic (AddEdgeBetween net e1 e2 u1 u2 none).edges) := by
  obtain ⟨ha1, ha2⟩ := pairAfterSwap_mem net h1 h2
  have hX : freshX net ∉ net.nodes := freshX_not_mem net
  have hY : freshY net ∉ net.nodes := freshY_not_mem net
  have hXY : freshX net ≠ freshY net := by
    unfold freshX freshY
    omega
  have e11 : (pairAfterSwap net e1 e2).1.1 ∈ net.nodes := (hend _ ha1).1
  have e12 : (pairAfterSwap net e1 e2).1.2 ∈ net.nodes := (hend _ ha1).2
  have e21 : (pairAfterSwap net e1 e2).2.1 ∈ net.nodes := (hend _ ha2).1
  have e22 : (pairAfterSwap net e1 e2).2.2 ∈ net.nodes := (hend _ ha2).2
  have hX1 : freshX net ≠ (pairAfterSwap net e1 e2).1.1 := fun h => hX (h ▸ e11)
  have hX2 : freshX net ≠ (pairAfterSwap net e1 e2).1.2 := fun h => hX (h ▸ e12)
  have hX3 : freshX net ≠ (pairAfterSwap net e1 e2).2.1 := fun h => hX (h ▸ e21)
  have hX4 : freshX net ≠ (pairAfterSwap net e1 e2).2.2 := fun h => hX (h ▸ e22)
  have hY1 : freshY net ≠ (pairAfterSwap net e1 e2).1.1 := fun h => hY (h ▸ e11)
  have hY2 : freshY net ≠ (pairAfterSwap net e1 e2).1.2 := fun h => hY (h ▸ e12)
  have hY3 : freshY net ≠ (pairAfterSwap net e1 e2).2.1 := fun h => hY (h ▸ e21)
  have hY4 : freshY net ≠ (pairAfterSwap net e1 e2).2.2 := fun h => hY (h ▸ e22)
  have hnodes : (AddEdgeBetween net e1 e2 u1 u2 none).nodes =
      net.nodes ∪ {freshX net, freshY net} := by
    rw [AddEdgeBetween_none_nodes]
    ext v
    simp only [Finset.mem_insert, Finset.mem_union, Finset.mem_singleton]
    constructor
    · rintro (rfl | rfl | rfl | rfl | rfl | rfl | hv)
      · exact Or.inl e11
      · exact Or.inr (Or.inl rfl)
      · exact Or.inl e12
      · exact Or.inl e21
      · exact Or.inr (Or.inr rfl)
      · exact Or.inl e22
      · exact Or.inl hv
    · rintro (hv | rfl | rfl)
      · tauto
      · tauto
      · tauto
  have hbase_no : ∀ c d : ℕ, c = freshX net ∨ d = freshX net ∨
      c = freshY net ∨ d = freshY net → (c, d) ∉ net.edges := by
    intro c d hcd hmem
    rcases hcd with rfl | rfl | rfl | rfl
    · exact hX (hend _ hmem).1
    · exact hX (hend _ hmem).2
    · exact hY (hend _ hmem).1
    · exact hY (hend _ hmem).2
  have hbase_no' : ∀ c d : ℕ, c = freshX net ∨ d = freshX net ∨
      c = freshY net ∨ d = freshY net →
      (c, d) ∉ (net.edges.erase (pairAfterSwap net e1 e2).1).erase
        (pairAfterSwap net e1 e2).2 := by
    intro c d hcd hmem
    exact hbase_no c d hcd (Finset.mem_of_mem_erase (Finset.mem_of_mem_erase hmem))
  have hm5 : (freshX net, freshY net) ∉
      (net.edges.erase (pairAfterSwap net e1 e2).1).erase
        (pairAfterSwap net e1 e2).2 :=
    hbase_no' _ _ (by tauto)
  have hm4 : (freshY net, (pairAfterSwap net e1 e2).2.2) ∉
      insert (freshX net, freshY net)
        ((net.edges.erase (pairAfterSwap net e1 e2).1).erase
          (pairAfterSwap net e1 e2).2) := by
    simp only [Finset.mem_insert, Prod.mk.injEq, not_or]
    exact ⟨fun h => hXY h.1.symm, hbase_no' _ _ (by tauto)⟩
  have hm3 : ((pairAfterSwap net e1 e2).2.1, freshY net) ∉
      insert (freshY net, (pairAfterSwap net e1 e2).2.2)
        (insert (freshX net, freshY net)
          ((net.edges.erase (pairAfterSwap net e1 e2).1).erase
            (pairAfterSwap net e1 e2).2)) := by
    simp only [Finset.mem_insert, Prod.mk.injEq, not_or]
    exact ⟨fun h => hY3 h.1.symm, fun h => hX3 h.1.symm,
      hbase_no' _ _ (by tauto)⟩
  have hm2 : (freshX net, (pairAfterSwap net e1 e2).1.2) ∉
      insert ((pairAfterSwap net e1 e2).2.1, freshY net)
        (insert (freshY net, (pairAfterSwap net e1 e2).2.2)
          (insert (freshX net, freshY net)
            ((net.edges.erase (pairAfterSwap net e1 e2).1).erase
              (pairAfterSwap net e1 e2).2))) := by
    simp only [Finset.mem_insert, Prod.mk.injEq, not_or]
    exact ⟨fun h => hX3 h.1, fun h => hXY h.1, fun h => hY2 h.2.symm,
      hbase_no' _ _ (by tauto)⟩
  have hm1 : ((pairAfterSwap net e1 e2).1.1, freshX net) ∉
      insert (freshX net, (pairAfterSwap net e1 e2).1.2)
        (insert ((pairAfterSwap net e1 e2).2.1, freshY net)
          (insert (freshY net, (pairAfterSwap net e1 e2).2.2)
            (insert (freshX net, freshY net)
              ((net.edges.erase (pairAfterSwap net e1 e2).1).erase
                (pairAfterSwap net e1 e2).2)))) := by
    simp only [Finset.mem_insert, Prod.mk.injEq, not_or]
    exact ⟨fun h => hX1 h.1.symm, fun h => hXY h.2, fun h => hY1 h.1.symm,
      fun h => hX1 h.1.symm, hbase_no' _ _ (by tauto)⟩
  have hcard : (AddEdgeBetween net e1 e2 u1 u2 none).edges.card =
      net.edges.card + (if e1 = e2 then 4 else 3) := by
    rw [AddEdgeBetween_none_edges]
    rw [Finset.card_insert_of_not_mem hm1, Finset.card_insert_of_not_mem hm2,
        Finset.card_insert_of_not_mem hm3, Finset.card_insert_of_not_mem hm4,
        Finset.card_insert_of_not_mem hm5]
    by_cases he : e1 = e2
    · have hpe : (pairAfterSwap net e1 e2).2 = (pairAfterSwap net e1 e2).1 := by
        unfold pairAfterSwap
        by_cases h : swapFlag net e1 e2 <;> simp [h, he]
      have hc1 : 1 ≤ net.edges.card := Finset.card_pos.mpr ⟨e1, h1⟩
      have hb : ((net.edges.erase (pairAfterSwap net e1 e2).1).erase
          (pairAfterSwap net e1 e2).2).card = net.edges.card - 1 := by
        rw [hpe, Finset.erase_idem, Finset.card_erase_of_mem ha1]
      rw [if_pos he]
      omega
    · have hne' : (pairAfterSwap net e1 e2).1 ≠ (pairAfterSwap net e1 e2).2 :=
        pairAfterSwap_ne net he
      have hc2 : 1 < net.edges.card :=
        Finset.one_lt_card.mpr ⟨_, ha1, _, ha2, hne'⟩
      have hb : ((net.edges.erase (pairAfterSwap net e1 e2).1).erase
          (pairAfterSwap net e1 e2).2).card = net.edges.card - 1 - 1 := by
        rw [Finset.card_erase_of_mem
            (Finset.mem_erase.mpr ⟨Ne.symm hne', ha2⟩),
          Finset.card_erase_of_mem ha1]
      rw [if_neg he]
      omega
  refine ⟨hnodes, ?_, hcard, ?_, ?_, ?_⟩
  · rw [hnodes, Finset.card_union_of_disjoint, Finset.card_insert_of_not_mem
      (by simpa using hXY), Finset.card_singleton]
    rw [Finset.disjoint_right]
    intro v hv
    simp only [Finset.mem_insert, Finset.mem_singleton] at hv
    rcases hv with rfl | rfl
    · exact hX
    · exact hY
  · intro e he
    rw [hnodes]
    rw [AddEdgeBetween_none_edges] at he
    simp only [Finset.mem_insert] at he
    have hXin : freshX net ∈ net.nodes ∪ {freshX net, freshY net} := by simp
    have hYin : freshY net ∈ net.nodes ∪ {freshX net, freshY net} := by simp
    have hold : ∀ v ∈ net.nodes, v ∈ net.nodes ∪ {freshX net, freshY net} := by
      intro v hv
      exact Finset.mem_union_left _ hv
    rcases he with rfl | rfl | rfl | rfl | rfl | hbe
    · exact ⟨hold _ e11, hXin⟩
    · exact ⟨hXin, hold _ e12⟩
    · exact ⟨hold _ e21, hYin⟩
    · exact ⟨hYin, hold _ e22⟩
    · exact ⟨hXin, hYin⟩
    · have := hend e (Finset.mem_of_mem_erase (Finset.mem_of_mem_erase hbe))
      exact ⟨hold _ this.1, hold _ this.2⟩
  · refine ⟨(freshX net, freshY net), ?_⟩
    rw [AddEdgeBetween_none_edges]
    simp
  · intro hac
    rw [AddEdgeBetween_none_edges]
    exact five_insert_acyclic net.edges _ _ _ _ hac ha1 ha2
      (fun z => hbase_no _ z (by tauto)) (fun z => hbase_no z _ (by tauto))
      (fun z => hbase_no _ z (by tauto)) (fun z => hbase_no z _ (by tauto))
      hXY hX1 hX2 hX3 hX4 hY1 hY2 hY3 hY4
      (pairAfterSwap_key net hac h1 h2)

/-! ### The selectors only ever pick existing edges -/

lemma pickD_mem {α : Type} (l : List α) (k : ℕ) (d : α)
    (h : 0 < l.length) : pickD l k d ∈ l := by
  unfold pickD
  have hk : k % l.length < l.length := Nat.mod_lt _ h
  rw [List.getD_eq_getElem _ _ hk]
  exact List.getElem_mem hk

lemma edgeList_length (net : Network) :
    (edgeList net).length = net.edges.card := length_sortedEdges net.edges.val

lemma pickD_edgeList_mem (net : Network) (hne : net.edges.Nonempty) (k : ℕ) :
    pickD (edgeList net) k (0, 0) ∈ net.edges := by
  have h0 : 0 < (edgeList net).length := by
    rw [edgeList_length]
    exact Finset.card_pos.mpr hne
  have := pickD_mem (edgeList net) k (0, 0) h0
  unfold edgeList at this
  exact Finset.mem_val.mp ((mem_sortedEdges net.edges.val _).mp this)

lemma mem_neighborList (net : Network) (v z : ℕ) :
    z ∈ neighborList net v ↔ ((v, z) ∈ net.edges ∨ (z, v) ∈ net.edges) := by
  unfold neighborList succList predList
  simp only [List.mem_append, List.mem_map, mem_sortedEdges, Finset.mem_val,
    Finset.mem_filter]
  constructor
  · rintro (⟨e, ⟨heE, hv⟩, hz⟩ | ⟨e, ⟨heE, hv⟩, hz⟩)
    · left
      have : e = (v, z) := by
        rcases e with ⟨c, d⟩
        simp only at hv hz
        rw [hv, hz]
      rwa [this] at heE
    · right
      have : e = (z, v) := by
        rcases e with ⟨c, d⟩
        simp only at hv hz
        rw [hv, hz]
      rwa [this] at heE
  · rintro (h | h)
    · exact Or.inl ⟨(v, z), ⟨h, rfl⟩, rfl⟩
    · exact Or.inr ⟨(z, v), ⟨h, rfl⟩, rfl⟩

/-- Invariant of the random walk: the final `(previous, current)` pair
is adjacent (one of its two orientations is a directed edge), whatever
the streams and fuel, as long as the starting pair is adjacent. -/
lemma walk_adjacent (net : Network) (rand : ℕ → ℕ) (coin : ℕ → Bool) :
    ∀ (fuel t prev cur : ℕ),
      ((prev, cur) ∈ net.edges ∨ (cur, prev) ∈ net.edges) →
      ((walk net rand coin fuel t prev cur).1.1,
        (walk net rand coin fuel t prev cur).1.2) ∈ net.edges ∨
      ((walk net rand coin fuel t prev cur).1.2,
        (walk net rand coin fuel t prev cur).1.1) ∈ net.edges := by
  intro fuel
  induction fuel with
  | zero => intro t prev cur h; exact h
  | succ fuel ih =>
      intro t prev cur h
      have hpl : 0 < (neighborList net cur).length := by
        have : prev ∈ neighborList net cur := by
          rw [mem_neighborList]
          tauto
        exact List.length_pos.mpr (List.ne_nil_of_mem this)
      have hnext : pickD (neighborList net cur) (rand t) 0 ∈ neighborList net cur :=
        pickD_mem _ _ _ hpl
      have hadj : (cur, pickD (neighborList net cur) (rand t) 0) ∈ net.edges ∨
          (pickD (neighborList net cur) (rand t) 0, cur) ∈ net.edges :=
        (mem_neighborList net cur _).mp hnext
      by_cases hc : coin t
      · simp only [walk, hc, if_true]
        exact hadj
      · simp only [walk, hc, if_false]
        exact ih (t + 1) cur _ hadj

/-- The initial pair of a try is adjacent: its two nodes are the two
endpoints of the picked `edge1`. -/
lemma walkStart_adjacent (net : Network) (hne : net.edges.Nonempty)
    (rand : ℕ → ℕ) (t : ℕ) :
    ((walkStart net rand t).1, (walkStart net rand t).2) ∈ net.edges ∨
      ((walkStart net rand t).2, (walkStart net rand t).1) ∈ net.edges := by
  have h1 : pickD (edgeList net) (rand t) (0, 0) ∈ net.edges :=
    pickD_edgeList_mem net hne (rand t)
  simp only [walkStart]
  by_cases hr : rand (t + 1) % 2 = 0
  · simp only [hr, if_true, if_pos rfl]
    left
    simpa using h1
  · simp only [hr, if_false]
    by_cases heq : (pickD (edgeList net) (rand t) (0, 0)).1 =
        (pickD (edgeList net) (rand t) (0, 0)).2
    · rw [if_pos heq]
      left
      have hp : ((pickD (edgeList net) (rand t) (0, 0)).1,
          (pickD (edgeList net) (rand t) (0, 0)).2) ∈ net.edges := by
        simpa using h1
      rwa [heq] at hp
    · rw [if_neg heq]
      right
      simpa using h1

/-- One try of `AddEdgeLocal` returns two existing edges. -/
lemma attempt_mem (net : Network) (hne : net.edges.Nonempty)
    (rand : ℕ → ℕ) (coin : ℕ → Bool) (stepFuel t : ℕ) :
    (attempt net rand coin stepFuel t).1.1 ∈ net.edges ∧
      (attempt net rand coin stepFuel t).1.2 ∈ net.edges := by
  have h1 : pickD (edgeList net) (rand t) (0, 0) ∈ net.edges :=
    pickD_edgeList_mem net hne (rand t)
  have hs := walkStart_adjacent net hne rand t
  have hw := walk_adjacent net rand coin stepFuel (t + 2)
    (walkStart net rand t).1 (walkStart net rand t).2 hs
  simp only [attempt]
  refine ⟨h1, ?_⟩
  by_cases hmem : ((walk net rand coin stepFuel (t + 2)
      (walkStart net rand t).1 (walkStart net rand t).2).1.1,
      (walk net rand coin stepFuel (t + 2)
        (walkStart net rand t).1 (walkStart net rand t).2).1.2) ∈ net.edges
  · rw [if_pos hmem]
    exact hmem
  · rw [if_neg hmem]
    rcases hw with hw | hw
    · exact absurd hw hmem
    · exact hw

/-- The retry loop of `AddEdgeLocal` returns two existing edges when at
least one try is allowed. -/
lemma tryLoop_mem (net : Network) (hne : net.edges.Nonempty)
    (rand : ℕ → ℕ) (coin : ℕ → Bool) (stepFuel : ℕ) :
    ∀ rem t, 1 ≤ rem →
      (tryLoop net rand coin stepFuel rem t).1 ∈ net.edges ∧
        (tryLoop net rand coin stepFuel rem t).2 ∈ net.edges := by
  intro rem
  induction rem with
  | zero => intro t h; omega
  | succ rem ih =>
      intro t _
      have ha := attempt_mem net hne rand coin stepFuel t
      simp only [tryLoop]
      by_cases hd : (attempt net rand coin stepFuel t).1.1 =
          (attempt net rand coin stepFuel t).1.2
      · rw [if_neg (fun hn => hn hd)]
        by_cases hz : rem = 0
        · rw [if_pos hz]
          exact ha
        · rw [if_neg hz]
          exact ih _ (by omega)
      · rw [if_pos hd]
        exact ha

/-! ### Invariants of the whole mutation loop -/

/-- Well-formedness and acyclicity are preserved by every insertion of
`GenerateNetwork`, for either selector, any streams and any fuels, and
the node count grows by exactly 2 per insertion. -/
lemma GenerateNetwork_inv (net : Network) (method : Option ℚ)
    (rand : ℕ → ℕ) (randQ : ℕ → ℚ) (coin : ℕ → Bool)
    (stepFuel tryFuel : ℕ)
    (hend : EndpointsOk net) (hne : net.edges.Nonempty) (r : ℕ) :
    EndpointsOk (GenerateNetwork net r method rand randQ coin stepFuel tryFuel) ∧
    (GenerateNetwork net r method rand randQ coin stepFuel tryFuel).edges.Nonempty ∧
    (GenerateNetwork net r method rand randQ coin stepFuel tryFuel).nodes.card
      = net.nodes.card + 2 * r ∧
    (Acyclic net.edges →
      Acyclic (GenerateNetwork net r method rand randQ coin stepFuel tryFuel).edges) := by
  induction r with
  | zero => exact ⟨hend, hne, by simp [GenerateNetwork], fun h => h⟩
  | succ r ih =>
      obtain ⟨ih1, ih2, ih3, ih4⟩ := ih
      rcases method with _ | q
      · have hm1 := pickD_edgeList_mem _ ih2 (rand (2 * r))
        have hm2 := pickD_edgeList_mem _ ih2 (rand (2 * r + 1))
        have spec := AddEdgeBetween_spec
          (GenerateNetwork net r none rand randQ coin stepFuel tryFuel)
          _ _ (randQ (2 * r)) (randQ (2 * r + 1)) ih1 hm1 hm2
        simp only [GenerateNetwork, AddEdgeUniform]
        refine ⟨spec.2.2.2.1, spec.2.2.2.2.1, ?_, fun hac => spec.2.2.2.2.2 (ih4 hac)⟩
        rw [spec.2.1, ih3]
        ring
      · have hp := tryLoop_mem
          (GenerateNetwork net r (some q) rand randQ coin stepFuel tryFuel)
          ih2 (fun k => rand (Nat.pair r k)) (fun k => coin (Nat.pair r k))
          stepFuel (tryFuel + 1) 0 (by omega)
        have spec := AddEdgeBetween_spec
          (GenerateNetwork net r (some q) rand randQ coin stepFuel tryFuel)
          _ _ (randQ (2 * r)) (randQ (2 * r + 1)) ih1 hp.1 hp.2
        simp only [GenerateNetwork, AddEdgeLocal]
        refine ⟨spec.2.2.2.1, spec.2.2.2.2.1, ?_, fun hac => spec.2.2.2.2.2 (ih4 hac)⟩
        rw [spec.2.1, ih3]
        ring

/-! ### Claim C1: cycle-avoidance reorientation and acyclicity -/

/-- C1: for every DAG (with recorded endpoints) and every distinct pair
of member edges, `AddEdgeBetween` first swaps the pair exactly when
`hasPath(graph, cB, pA)` holds, then replaces the two edges by their
subdivisions through the fresh nodes `X`, `Y` plus the connector
`(X, Y)`; the result is acyclic, and acyclicity is preserved by
`GenerateNetwork` for every `r ≥ 0`, either selector and any streams. -/
theorem addEdgeBetween_acyclic_spec (net : Network) (e1 e2 : ℕ × ℕ)
    (u1 u2 : ℚ) (r stepFuel tryFuel : ℕ) (method : Option ℚ)
    (rand : ℕ → ℕ) (randQ : ℕ → ℚ) (coin : ℕ → Bool)
    (hend : EndpointsOk net) (hac : Acyclic net.edges)
    (h1 : e1 ∈ net.edges) (h2 : e2 ∈ net.edges) (hne12 : e1 ≠ e2)
    (hne : net.edges.Nonempty) :
    pairAfterSwap net e1 e2 =
      (if hasPathB net.edges e2.2 e1.1 then (e2, e1) else (e1, e2)) ∧
    (AddEdgeBetween net e1 e2 u1 u2 none).edges =
      insert ((pairAfterSwap net e1 e2).1.1, freshX net)
        (insert (freshX net, (pairAfterSwap net e1 e2).1.2)
          (insert ((pairAfterSwap net e1 e2).2.1, freshY net)
            (insert (freshY net, (pairAfterSwap net e1 e2).2.2)
              (insert (freshX net, freshY net)
                ((net.edges.erase (pairAfterSwap net e1 e2).1).erase
                  (pairAfterSwap net e1 e2).2))))) ∧
    Acyclic (AddEdgeBetween net e1 e2 u1 u2 none).edges ∧
    Acyclic (GenerateNetwork net r method rand randQ coin stepFuel tryFuel).edges := by
  refine ⟨rfl, AddEdgeBetween_none_edges net e1 e2 u1 u2, ?_, ?_⟩
  · exact (AddEdgeBetween_spec net e1 e2 u1 u2 hend h1 h2).2.2.2.2.2 hac
  · exact (GenerateNetwork_inv net method rand randQ coin stepFuel tryFuel
      hend hne r).2.2.2 hac

/-- The 2-tip tree `{(3,1), (3,2)}` as a concrete test network. -/
def tnet : Network :=
  { nodes := {1, 2, 3}, edges := {(3, 1), (3, 2)},
    length := fun _ => none, prob := fun _ => none }

lemma tnet_acyclic : Acyclic tnet.edges :=
  acyclic_of_rank tnet.edges (fun v => if v = 3 then 0 else 1) (by decide)

/-- Witness for C1 on the 2-tip tree with the pair `((3,1), (3,2))`. -/
theorem addEdgeBetween_acyclic_spec_witness :
    pairAfterSwap tnet (3, 1) (3, 2) =
      (if hasPathB tnet.edges (3, 2).2 (3, 1).1 then ((3, 2), (3, 1))
        else ((3, 1), (3, 2))) ∧
    (AddEdgeBetween tnet (3, 1) (3, 2) 0 0 none).edges =
      insert ((pairAfterSwap tnet (3, 1) (3, 2)).1.1, freshX tnet)
        (insert (freshX tnet, (pairAfterSwap tnet (3, 1) (3, 2)).1.2)
          (insert ((pairAfterSwap tnet (3, 1) (3, 2)).2.1, freshY tnet)
            (insert (freshY tnet, (pairAfterSwap tnet (3, 1) (3, 2)).2.2)
              (insert (freshX tnet, freshY tnet)
                ((tnet.edges.erase (pairAfterSwap tnet (3, 1) (3, 2)).1).erase
                  (pairAfterSwap tnet (3, 1) (3, 2)).2))))) ∧
    Acyclic (AddEdgeBetween tnet (3, 1) (3, 2) 0 0 none).edges ∧
    Acyclic (GenerateNetwork tnet 1 none (fun _ => 0) (fun _ => 0)
      (fun _ => true) 1 1).edges :=
  addEdgeBetween_acyclic_spec tnet (3, 1) (3, 2) 0 0 1 1 1 none
    (fun _ => 0) (fun _ => 0) (fun _ => true)
    (by decide) tnet_acyclic (by decide) (by decide) (by decide)
    ⟨(3, 1), by decide⟩

/-! ### Claim C3: the Uniform selector does NOT resample -/

/-- Counterexample to C3: `np.random.choice(range(len(edges)), 2)` draws
with replacement and the source never resamples.  On the 2-tip tree,
when both draws select index 0 both picked edges are `(3,1)`, the same
edge is passed twice to `AddEdgeBetween`, and the result (6 edges: one
removal, five additions) differs from what splicing any two distinct
edges produces (2 + 3 = 5 edges). -/
theorem addEdgeUniform_no_resample_counterexample :
    pickD (edgeList tnet) 0 (0, 0) = (3, 1) ∧
    (AddEdgeUniform tnet 0 0 0 0 none).edges =
      (AddEdgeBetween tnet (3, 1) (3, 1) 0 0 none).edges ∧
    (AddEdgeUniform tnet 0 0 0 0 none).edges.card = 6 ∧
    tnet.edges.card = 2 := by
  refine ⟨by decide, rfl, by decide, by decide⟩

/-- C3 amended: the Uniform selector draws the two edge indices
independently with replacement and performs no resampling; whenever the
two draws select the same edge it passes that edge twice to
`AddEdgeBetween`, which then adds 2 nodes and 4 edges (instead of the
3 edges a distinct pair adds). -/
theorem addEdgeUniform_same_draw_spec (net : Network) (i0 i1 : ℕ)
    (u1 u2 : ℚ) (hend : EndpointsOk net) (hne : net.edges.Nonempty)
    (hsame : pickD (edgeList net) i0 (0, 0) = pickD (edgeList net) i1 (0, 0)) :
    AddEdgeUniform net i0 i1 u1 u2 none =
      AddEdgeBetween net (pickD (edgeList net) i0 (0, 0))
        (pickD (edgeList net) i1 (0, 0)) u1 u2 none ∧
    (AddEdgeUniform net i0 i1 u1 u2 none).nodes.card = net.nodes.card + 2 ∧
    (AddEdgeUniform net i0 i1 u1 u2 none).edges.card = net.edges.card + 4 := by
  have hm0 := pickD_edgeList_mem net hne i0
  have hm1 := pickD_edgeList_mem net hne i1
  have spec := AddEdgeBetween_spec net (pickD (edgeList net) i0 (0, 0))
    (pickD (edgeList net) i1 (0, 0)) u1 u2 hend hm0 hm1
  refine ⟨rfl, ?_, ?_⟩
  · exact spec.2.1
  · have := spec.2.2.1
    rw [if_pos hsame] at this
    exact this

/-- Witness for the amended C3 on the 2-tip tree with coinciding draws. -/
theorem addEdgeUniform_same_draw_spec_witness :
    AddEdgeUniform tnet 0 0 0 0 none =
      AddEdgeBetween tnet (pickD (edgeList tnet) 0 (0, 0))
        (pickD (edgeList tnet) 0 (0, 0)) 0 0 none ∧
    (AddEdgeUniform tnet 0 0 0 0 none).nodes.card = tnet.nodes.card + 2 ∧
    (AddEdgeUniform tnet 0 0 0 0 none).edges.card = tnet.edges.card + 4 :=
  addEdgeUniform_same_draw_spec tnet 0 0 0 0 (by decide)
    ⟨(3, 1), by decide⟩ rfl

/-! ### Claim C2: node and edge counts of `addReticulations` -/

/-- Counterexample to C2: on the 2-tip tree (`n = 2`: 3 nodes, 2 edges)
one Uniform insertion with a stream making both draws coincide yields 6
edges, not the claimed `(2n-2) + 3r = 5`.  (The node count 5 does match
`(2n-1) + 2r`.) -/
theorem generateNetwork_counts_counterexample :
    tnet.nodes.card = 3 ∧ tnet.edges.card = 2 ∧
    (GenerateNetwork tnet 1 none (fun _ => 0) (fun _ => 0)
      (fun _ => true) 1 1).edges.card = 6 ∧
    ¬ (GenerateNetwork tnet 1 none (fun _ => 0) (fun _ => 0)
      (fun _ => true) 1 1).edges.card = tnet.edges.card + 3 * 1 := by
  refine ⟨by decide, by decide, by decide, by decide⟩

/-- C2 amended: `GenerateNetwork` with the Uniform selector adds exactly
2 nodes and 3 edges per insertion PROVIDED the two edges drawn at each
insertion are distinct; so after `r` insertions the counts are
`nodes + 2r` and `edges + 3r`.  (When a draw coincides, that insertion
adds 4 edges instead — see the counterexample.) -/
theorem generateNetwork_counts_spec (net : Network) (rand : ℕ → ℕ)
    (randQ : ℕ → ℚ) (coin : ℕ → Bool) (stepFuel tryFuel r : ℕ)
    (hend : EndpointsOk net) (hne : net.edges.Nonempty)
    (hdistinct : ∀ i, i < r →
      pickD (edgeList (GenerateNetwork net i none rand randQ coin
        stepFuel tryFuel)) (rand (2 * i)) (0, 0) ≠
      pickD (edgeList (GenerateNetwork net i none rand randQ coin
        stepFuel tryFuel)) (rand (2 * i + 1)) (0, 0)) :
    (GenerateNetwork net r none rand randQ coin stepFuel tryFuel).nodes.card
      = net.nodes.card + 2 * r ∧
    (GenerateNetwork net r none rand randQ coin stepFuel tryFuel).edges.card
      = net.edges.card + 3 * r := by
  induction r with
  | zero => simp [GenerateNetwork]
  | succ r ih =>
      obtain ⟨ihn, ihe⟩ := ih (fun i hi => hdistinct i (by omega))
      obtain ⟨inv1, inv2, _, _⟩ := GenerateNetwork_inv net none rand randQ
        coin stepFuel tryFuel hend hne r
      have hm1 := pickD_edgeList_mem _ inv2 (rand (2 * r))
      have hm2 := pickD_edgeList_mem _ inv2 (rand (2 * r + 1))
      have spec := AddEdgeBetween_spec
        (GenerateNetwork net r none rand randQ coin stepFuel tryFuel)
        _ _ (randQ (2 * r)) (randQ (2 * r + 1)) inv1 hm1 hm2
      have hcard := spec.2.2.1
      rw [if_neg (hdistinct r (by omega))] at hcard
      constructor
      · show (AddEdgeUniform _ _ _ _ _ none).nodes.card = _
        simp only [AddEdgeUniform]
        rw [spec.2.1, ihn]
        ring
      · show (AddEdgeUniform _ _ _ _ _ none).edges.card = _
        simp only [AddEdgeUniform]
        rw [hcard, ihe]
        ring

/-- Witness for the amended C2: one insertion on the 2-tip tree with
distinct draws (indices 0 and 1) gives 5 nodes and 5 edges. -/
theorem generateNetwork_counts_spec_witness :
    (GenerateNetwork tnet 1 none (fun k => k) (fun _ => 0)
      (fun _ => true) 1 1).nodes.card = tnet.nodes.card + 2 * 1 ∧
    (GenerateNetwork tnet 1 none (fun k => k) (fun _ => 0)
      (fun _ => true) 1 1).edges.card = tnet.edges.card + 3 * 1 :=
  generateNetwork_counts_spec tnet (fun k => k) (fun _ => 0)
    (fun _ => true) 1 1 1 (by decide) ⟨(3, 1), by decide⟩ (by decide)

/-! ### Claim C6: attribute redistribution of an insertion -/

set_option maxHeartbeats 1000000 in
/-- C6: with `edge1` (after the swap) carrying length `L` and `edge2`
carrying `L2`, and `u1`, `u2` the unit-interval draws: the two halves of
`edge1` get lengths `u1*L` and `L - u1*L` (summing to `L`, each in
`[0, L]`); a probability on `edge1` moves unchanged to the `(X, c)` half
while `(p, X)` gets none; the identical rule applies to `edge2`/`Y`; and
the connector `(X, Y)` receives neither attribute.  The absence
hypotheses say the graph carries no attribute on the not-yet-existing
edges, which `remove_edges_from`/fresh insertion guarantee. -/
theorem attribute_redistribution_spec (net : Network) (e1 e2 : ℕ × ℕ)
    (u1 u2 : ℚ) (L L2 : ℚ)
    (hend : EndpointsOk net) (h1 : e1 ∈ net.edges) (h2 : e2 ∈ net.edges)
    (hu1 : 0 ≤ u1) (hu1' : u1 < 1) (hL : 0 ≤ L)
    (hlen1 : net.length (pairAfterSwap net e1 e2).1 = some L)
    (hlen2 : net.length (pairAfterSwap net e1 e2).2 = some L2)
    (habs1 : net.prob ((pairAfterSwap net e1 e2).1.1, freshX net) = none)
    (habs2 : net.prob ((pairAfterSwap net e1 e2).2.1, freshY net) = none)
    (habsl : net.length (freshX net, freshY net) = none)
    (habsp : net.prob (freshX net, freshY net) = none) :
    (AddEdgeBetween net e1 e2 u1 u2 none).length
        ((pairAfterSwap net e1 e2).1.1, freshX net) = some (u1 * L) ∧
    (AddEdgeBetween net e1 e2 u1 u2 none).length
        (freshX net, (pairAfterSwap net e1 e2).1.2) = some (L - u1 * L) ∧
    u1 * L + (L - u1 * L) = L ∧
    (0 ≤ u1 * L ∧ u1 * L ≤ L) ∧
    (∀ p, net.prob (pairAfterSwap net e1 e2).1 = some p →
      (AddEdgeBetween net e1 e2 u1 u2 none).prob
        (freshX net, (pairAfterSwap net e1 e2).1.2) = some p) ∧
    (AddEdgeBetween net e1 e2 u1 u2 none).prob
        ((pairAfterSwap net e1 e2).1.1, freshX net) = none ∧
    (AddEdgeBetween net e1 e2 u1 u2 none).length
        ((pairAfterSwap net e1 e2).2.1, freshY net) = some (u2 * L2) ∧
    (AddEdgeBetween net e1 e2 u1 u2 none).length
        (freshY net, (pairAfterSwap net e1 e2).2.2) = some (L2 - u2 * L2) ∧
    u2 * L2 + (L2 - u2 * L2) = L2 ∧
    (∀ p, net.prob (pairAfterSwap net e1 e2).2 = some p →
      (AddEdgeBetween net e1 e2 u1 u2 none).prob
        (freshY net, (pairAfterSwap net e1 e2).2.2) = some p) ∧
    (AddEdgeBetween net e1 e2 u1 u2 none).prob
        ((pairAfterSwap net e1 e2).2.1, freshY net) = none ∧
    (AddEdgeBetween net e1 e2 u1 u2 none).length
        (freshX net, freshY net) = none ∧
    (AddEdgeBetween net e1 e2 u1 u2 none).prob
        (freshX net, freshY net) = none := by
  obtain ⟨ha1, ha2⟩ := pairAfterSwap_mem net h1 h2
  have hX : freshX net ∉ net.nodes := freshX_not_mem net
  have hY : freshY net ∉ net.nodes := freshY_not_mem net
  have hXY : freshX net ≠ freshY net := by
    unfold freshX freshY
    omega
  have e11 : (pairAfterSwap net e1 e2).1.1 ∈ net.nodes := (hend _ ha1).1
  have e12 : (pairAfterSwap net e1 e2).1.2 ∈ net.nodes := (hend _ ha1).2
  have e21 : (pairAfterSwap net e1 e2).2.1 ∈ net.nodes := (hend _ ha2).1
  have e22 : (pairAfterSwap net e1 e2).2.2 ∈ net.nodes := (hend _ ha2).2
  have hX1 : freshX net ≠ (pairAfterSwap net e1 e2).1.1 := fun h => hX (h ▸ e11)
  have hX2 : freshX net ≠ (pairAfterSwap net e1 e2).1.2 := fun h => hX (h ▸ e12)
  have hX3 : freshX net ≠ (pairAfterSwap net e1 e2).2.1 := fun h => hX (h ▸ e21)
  have hX4 : freshX net ≠ (pairAfterSwap net e1 e2).2.2 := fun h => hX (h ▸ e22)
  have hY1 : freshY net ≠ (pairAfterSwap net e1 e2).1.1 := fun h => hY (h ▸ e11)
  have hY2 : freshY net ≠ (pairAfterSwap net e1 e2).1.2 := fun h => hY (h ▸ e12)
  have hY3 : freshY net ≠ (pairAfterSwap net e1 e2).2.1 := fun h => hY (h ▸ e21)
  have hY4 : freshY net ≠ (pairAfterSwap net e1 e2).2.2 := fun h => hY (h ▸ e22)
  refine ⟨?_, ?_, by ring, ⟨mul_nonneg hu1 hL, ?_⟩, ?_, ?_, ?_, ?_, by ring,
    ?_, ?_, ?_, ?_⟩
  · simp only [AddEdgeBetween]
    rw [hlen1, hlen2]
    simp [Prod.ext_iff, hXY, hX1, Ne.symm hX1, hX2, Ne.symm hX2, hX3,
      Ne.symm hX3, hX4, Ne.symm hX4, hY1, Ne.symm hY1, hY2, Ne.symm hY2,
      hY3, Ne.symm hY3, hY4, Ne.symm hY4]
  · simp only [AddEdgeBetween]
    rw [hlen1, hlen2]
    simp [Prod.ext_iff, hXY, hX1, Ne.symm hX1, hX2, Ne.symm hX2, hX3,
      Ne.symm hX3, hX4, Ne.symm hX4, hY1, Ne.symm hY1, hY2, Ne.symm hY2,
      hY3, Ne.symm hY3, hY4, Ne.symm hY4]
  · calc u1 * L ≤ 1 * L := mul_le_mul_of_nonneg_right (le_of_lt hu1') hL
      _ = L := one_mul L
  · intro p hp
    simp only [AddEdgeBetween]
    rw [hp]
    cases hq2 : net.prob (pairAfterSwap net e1 e2).2 <;>
      simp [Prod.ext_iff, hXY, hX1, Ne.symm hX1, hX2, Ne.symm hX2, hX3,
        Ne.symm hX3, hX4, Ne.symm hX4, hY1, Ne.symm hY1, hY2, Ne.symm hY2,
        hY3, Ne.symm hY3, hY4, Ne.symm hY4]
  · simp only [AddEdgeBetween]
    cases hq1 : net.prob (pairAfterSwap net e1 e2).1 <;>
      cases hq2 : net.prob (pairAfterSwap net e1 e2).2 <;>
      simp [Prod.ext_iff, hXY, hX1, Ne.symm hX1, hX2, Ne.symm hX2, hX3,
        Ne.symm hX3, hX4, Ne.symm hX4, hY1, Ne.symm hY1, hY2, Ne.symm hY2,
        hY3, Ne.symm hY3, hY4, Ne.symm hY4, habs1]
  · simp only [AddEdgeBetween]
    rw [hlen1, hlen2]
    simp [Prod.ext_iff, hXY, hX1, Ne.symm hX1, hX2, Ne.symm hX2, hX3,
      Ne.symm hX3, hX4, Ne.symm hX4, hY1, Ne.symm hY1, hY2, Ne.symm hY2,
      hY3, Ne.symm hY3, hY4, Ne.symm hY4]
  · simp only [AddEdgeBetween]
    rw [hlen1, hlen2]
    simp [Prod.ext_iff, hXY, hX1, Ne.symm hX1, hX2, Ne.symm hX2, hX3,
      Ne.symm hX3, hX4, Ne.symm hX4, hY1, Ne.symm hY1, hY2, Ne.symm hY2,
      hY3, Ne.symm hY3, hY4, Ne.symm hY4]
  · intro p hp
    simp only [AddEdgeBetween]
    rw [hp]
    cases hq1 : net.prob (pairAfterSwap net e1 e2).1 <;>
      simp [Prod.ext_iff, hXY, hX1, Ne.symm hX1, hX2, Ne.symm hX2, hX3,
        Ne.symm hX3, hX4, Ne.symm hX4, hY1, Ne.symm hY1, hY2, Ne.symm hY2,
        hY3, Ne.symm hY3, hY4, Ne.symm hY4]
  · simp only [AddEdgeBetween]
    cases hq1 : net.prob (pairAfterSwap net e1 e2).1 <;>
      cases hq2 : net.prob (pairAfterSwap net e1 e2).2 <;>
      simp [Prod.ext_iff, hXY, hX1, Ne.symm hX1, hX2, Ne.symm hX2, hX3,
        Ne.symm hX3, hX4, Ne.symm hX4, hY1, Ne.symm hY1, hY2, Ne.symm hY2,
        hY3, Ne.symm hY3, hY4, Ne.symm hY4, habs2]
  · simp only [AddEdgeBetween]
    rw [hlen1, hlen2]
    simp [Prod.ext_iff, hXY, hX1, Ne.symm hX1, hX2, Ne.symm hX2, hX3,
      Ne.symm hX3, hX4, Ne.symm hX4, hY1, Ne.symm hY1, hY2, Ne.symm hY2,
      hY3, Ne.symm hY3, hY4, Ne.symm hY4, habsl]
  · simp only [AddEdgeBetween]
    cases hq1 : net.prob (pairAfterSwap net e1 e2).1 <;>
      cases hq2 : net.prob (pairAfterSwap net e1 e2).2 <;>
      simp [Prod.ext_iff, hXY, hX1, Ne.symm hX1, hX2, Ne.symm hX2, hX3,
        Ne.symm hX3, hX4, Ne.symm hX4, hY1, Ne.symm hY1, hY2, Ne.symm hY2,
        hY3, Ne.symm hY3, hY4, Ne.symm hY4, habsp]

/-- The 2-tip tree with a length and a probability on `(3,1)` and a
length on `(3,2)`, for exercising the attribute redistribution. -/
def lnet : Network :=
  { nodes := {1, 2, 3}, edges := {(3, 1), (3, 2)},
    length := fun e => if e = (3, 1) then some 1
      else if e = (3, 2) then some 2 else none,
    prob := fun e => if e = (3, 1) then some (1 / 2) else none }

/-- Witness for C6 on `lnet` with `u1 = 1/3`, `u2 = 1/2`. -/
theorem attribute_redistribution_spec_witness :
    (AddEdgeBetween lnet (3, 1) (3, 2) (1 / 3) (1 / 2) none).length
        ((pairAfterSwap lnet (3, 1) (3, 2)).1.1, freshX lnet) =
      some (1 / 3 * 1) ∧
    (AddEdgeBetween lnet (3, 1) (3, 2) (1 / 3) (1 / 2) none).length
        (freshX lnet, (pairAfterSwap lnet (3, 1) (3, 2)).1.2) =
      some (1 - 1 / 3 * 1) ∧
    (1 / 3 : ℚ) * 1 + (1 - 1 / 3 * 1) = 1 ∧
    ((0 : ℚ) ≤ 1 / 3 * 1 ∧ (1 / 3 : ℚ) * 1 ≤ 1) ∧
    (∀ p, lnet.prob (pairAfterSwap lnet (3, 1) (3, 2)).1 = some p →
      (AddEdgeBetween lnet (3, 1) (3, 2) (1 / 3) (1 / 2) none).prob
        (freshX lnet, (pairAfterSwap lnet (3, 1) (3, 2)).1.2) = some p) ∧
    (AddEdgeBetween lnet (3, 1) (3, 2) (1 / 3) (1 / 2) none).prob
        ((pairAfterSwap lnet (3, 1) (3, 2)).1.1, freshX lnet) = none ∧
    (AddEdgeBetween lnet (3, 1) (3, 2) (1 / 3) (1 / 2) none).length
        ((pairAfterSwap lnet (3, 1) (3, 2)).2.1, freshY lnet) =
      some (1 / 2 * 2) ∧
    (AddEdgeBetween lnet (3, 1) (3, 2) (1 / 3) (1 / 2) none).length
        (freshY lnet, (pairAfterSwap lnet (3, 1) (3, 2)).2.2) =
      some (2 - 1 / 2 * 2) ∧
    (1 / 2 : ℚ) * 2 + (2 - 1 / 2 * 2) = 2 ∧
    (∀ p, lnet.prob (pairAfterSwap lnet (3, 1) (3, 2)).2 = some p →
      (AddEdgeBetween lnet (3, 1) (3, 2) (1 / 3) (1 / 2) none).prob
        (freshY lnet, (pairAfterSwap lnet (3, 1) (3, 2)).2.2) = some p) ∧
    (AddEdgeBetween lnet (3, 1) (3, 2) (1 / 3) (1 / 2) none).prob
        ((pairAfterSwap lnet (3, 1) (3, 2)).2.1, freshY lnet) = none ∧
    (AddEdgeBetween lnet (3, 1) (3, 2) (1 / 3) (1 / 2) none).length
        (freshX lnet, freshY lnet) = none ∧
    (AddEdgeBetween lnet (3, 1) (3, 2) (1 / 3) (1 / 2) none).prob
        (freshX lnet, freshY lnet) = none :=
  attribute_redistribution_spec lnet (3, 1) (3, 2) (1 / 3) (1 / 2) 1 2
    (by decide) (by decide) (by decide) (by norm_num) (by norm_num)
    (by norm_num) (by decide) (by decide) (by decide) (by decide)
    (by decide) (by decide)

/-! ### Claim C7: exhaustion of the LocalWalk retry loop -/

/-- Counterexample to C7: on the 2-tip tree with streams that make every
try return `edge2 = edge1` and `max_tries = 1`, the retry loop exhausts
without a distinct pair — and the source still calls `AddEdgeBetween`
with that equal pair, mutating the graph (2 nodes and 4 edges added)
instead of failing without mutation. -/
theorem addEdgeLocal_exhaustion_counterexample :
    (tryLoop tnet (fun _ => 0) (fun _ => true) 1 1 0).1 =
      (tryLoop tnet (fun _ => 0) (fun _ => true) 1 1 0).2 ∧
    (AddEdgeLocal tnet (fun _ => 0) (fun _ => true) 1 1 0 0 none).edges ≠
      tnet.edges ∧
    (AddEdgeLocal tnet (fun _ => 0) (fun _ => true) 1 1 0 0 none).edges.card =
      tnet.edges.card + 4 := by
  refine ⟨by decide, by decide, by decide⟩

/-- C7 amended: when the retry loop exceeds `max_tries` without finding
a pair distinct from `edge1`, `AddEdgeLocal` does NOT fail: it falls
through and calls `AddEdgeBetween` on the last examined (equal) pair,
which mutates the graph by adding 2 nodes and 4 edges (a double
subdivision of the single edge). -/
theorem addEdgeLocal_exhaustion_spec (net : Network) (rand : ℕ → ℕ)
    (coin : ℕ → Bool) (stepFuel maxTries : ℕ) (u1 u2 : ℚ)
    (hend : EndpointsOk net) (hne : net.edges.Nonempty) (hT : 1 ≤ maxTries)
    (hfail : (tryLoop net rand coin stepFuel maxTries 0).1 =
      (tryLoop net rand coin stepFuel maxTries 0).2) :
    AddEdgeLocal net rand coin stepFuel maxTries u1 u2 none =
      AddEdgeBetween net (tryLoop net rand coin stepFuel maxTries 0).1
        (tryLoop net rand coin stepFuel maxTries 0).2 u1 u2 none ∧
    (AddEdgeLocal net rand coin stepFuel maxTries u1 u2 none).nodes.card =
      net.nodes.card + 2 ∧
    (AddEdgeLocal net rand coin stepFuel maxTries u1 u2 none).edges.card =
      net.edges.card + 4 := by
  obtain ⟨hm1, hm2⟩ := tryLoop_mem net hne rand coin stepFuel maxTries 0 hT
  have spec := AddEdgeBetween_spec net
    (tryLoop net rand coin stepFuel maxTries 0).1
    (tryLoop net rand coin stepFuel maxTries 0).2 u1 u2 hend hm1 hm2
  refine ⟨rfl, spec.2.1, ?_⟩
  have := spec.2.2.1
  rw [if_pos hfail] at this
  exact this

/-- Witness for the amended C7 on the 2-tip tree. -/
theorem addEdgeLocal_exhaustion_spec_witness :
    AddEdgeLocal tnet (fun _ => 0) (fun _ => true) 1 1 0 0 none =
      AddEdgeBetween tnet (tryLoop tnet (fun _ => 0) (fun _ => true) 1 1 0).1
        (tryLoop tnet (fun _ => 0) (fun _ => true) 1 1 0).2 0 0 none ∧
    (AddEdgeLocal tnet (fun _ => 0) (fun _ => true) 1 1 0 0 none).nodes.card =
      tnet.nodes.card + 2 ∧
    (AddEdgeLocal tnet (fun _ => 0) (fun _ => true) 1 1 0 0 none).edges.card =
      tnet.edges.card + 4 :=
  addEdgeLocal_exhaustion_spec tnet (fun _ => 0) (fun _ => true) 1 1 0 0
    (by decide) ⟨(3, 1), by decide⟩ (by decide) (by decide)

/-! ### Claim C10: the walk always ends on an existing edge -/

/-- C10: at the end of every random-walk attempt one of the orientations
of the final `(previous, current)` pair is a directed edge (each step
moves to a successor or predecessor), so the `edge2` the attempt reads
off — and `edge1` — are existing edges, and the attribute lookups that
`AddEdgeBetween` performs on them touch existing edges only.  Holds for
every graph with a nonempty edge set, every stream and every fuel. -/
theorem walk_edge_exists_spec (net : Network) (rand : ℕ → ℕ)
    (coin : ℕ → Bool) (stepFuel t : ℕ) (hne : net.edges.Nonempty) :
    (((walk net rand coin stepFuel (t + 2) (walkStart net rand t).1
        (walkStart net rand t).2).1.1,
      (walk net rand coin stepFuel (t + 2) (walkStart net rand t).1
        (walkStart net rand t).2).1.2) ∈ net.edges ∨
     ((walk net rand coin stepFuel (t + 2) (walkStart net rand t).1
        (walkStart net rand t).2).1.2,
      (walk net rand coin stepFuel (t + 2) (walkStart net rand t).1
        (walkStart net rand t).2).1.1) ∈ net.edges) ∧
    (attempt net rand coin stepFuel t).1.1 ∈ net.edges ∧
    (attempt net rand coin stepFuel t).1.2 ∈ net.edges :=
  ⟨walk_adjacent net rand coin stepFuel (t + 2) _ _
      (walkStart_adjacent net hne rand t),
    attempt_mem net hne rand coin stepFuel t⟩

/-- Witness for C10 on the 2-tip tree. -/
theorem walk_edge_exists_spec_witness :
    (((walk tnet (fun _ => 0) (fun _ => false) 3 (0 + 2)
        (walkStart tnet (fun _ => 0) 0).1
        (walkStart tnet (fun _ => 0) 0).2).1.1,
      (walk tnet (fun _ => 0) (fun _ => false) 3 (0 + 2)
        (walkStart tnet (fun _ => 0) 0).1
        (walkStart tnet (fun _ => 0) 0).2).1.2) ∈ tnet.edges ∨
     ((walk tnet (fun _ => 0) (fun _ => false) 3 (0 + 2)
        (walkStart tnet (fun _ => 0) 0).1
        (walkStart tnet (fun _ => 0) 0).2).1.2,
      (walk tnet (fun _ => 0) (fun _ => false) 3 (0 + 2)
        (walkStart tnet (fun _ => 0) 0).1
        (walkStart tnet (fun _ => 0) 0).2).1.1) ∈ tnet.edges) ∧
    (attempt tnet (fun _ => 0) (fun _ => false) 3 0).1.1 ∈ tnet.edges ∧
    (attempt tnet (fun _ => 0) (fun _ => false) 3 0).1.2 ∈ tnet.edges :=
  walk_edge_exists_spec tnet (fun _ => 0) (fun _ => false) 3 0
    ⟨(3, 1), by decide⟩

/-! ### Claim C4: invariants of the tree builder -/

/-- Remaining work of the builder: one pop per internal node still to
process. -/
def bmeasure (st : BState) : ℕ :=
  ((st.queue.map Prod.snd).map (fun m => m - 1)).sum

/-- Invariant of the `simulateBetaSplitting` loop for target tip count
`n ≥ 2`: leaves occupy `1..lastLeaf`, internal nodes `n+1..lastInternal`,
the queue holds distinct already-created internal nodes with labels
`≥ 2`, the conservation sums tie the counters to the work left, a node
has out-degree 2 once split and 0 while pending or a leaf, and every
non-root created node has exactly one incoming edge. -/
structure TreeInv (n : ℕ) (st : BState) : Prop where
  hn : 2 ≤ n
  labels_ge : ∀ q ∈ st.queue, 2 ≤ q.2
  ids_lb : ∀ q ∈ st.queue, n + 1 ≤ q.1
  ids_ub : ∀ q ∈ st.queue, q.1 ≤ st.lastInternal
  ids_nodup : (st.queue.map Prod.fst).Nodup
  leaf_sum : st.lastLeaf + (st.queue.map Prod.snd).sum = n
  internal_sum : st.lastInternal +
    ((st.queue.map Prod.snd).map (fun m => m - 2)).sum = 2 * n - 1
  edge_sum : st.edges.card +
    ((st.queue.map Prod.snd).map (fun m => 2 * m - 2)).sum = 2 * n - 2
  root_lb : n + 1 ≤ st.lastInternal
  nodes_eq : st.nodes =
    Finset.Icc 1 st.lastLeaf ∪ Finset.Icc (n + 1) st.lastInternal
  out_queue : ∀ v ∈ st.queue.map Prod.fst, outdeg st.edges v = 0
  out_done : ∀ v ∈ Finset.Icc (n + 1) st.lastInternal,
    v ∉ st.queue.map Prod.fst → outdeg st.edges v = 2
  out_other : ∀ v, v ∉ Finset.Icc (n + 1) st.lastInternal →
    outdeg st.edges v = 0
  in_deg : ∀ v, indeg st.edges v =
    (if v ∈ Finset.Icc 1 st.lastLeaf ∪ Finset.Icc (n + 2) st.lastInternal
      then 1 else 0)
  endpoints : ∀ e ∈ st.edges, e.1 ∈ st.nodes ∧ e.2 ∈ st.nodes

lemma outdeg_insert_of_not_mem {E : Finset (ℕ × ℕ)} {e : ℕ × ℕ}
    (he : e ∉ E) (w : ℕ) :
    outdeg (insert e E) w = outdeg E w + (if e.1 = w then 1 else 0) := by
  unfold outdeg
  rw [Finset.filter_insert]
  by_cases h : e.1 = w
  · rw [if_pos h, if_pos h,
      Finset.card_insert_of_not_mem (fun hc => he (Finset.mem_filter.mp hc).1)]
  · rw [if_neg h, if_neg h, Nat.add_zero]

lemma indeg_insert_of_not_mem {E : Finset (ℕ × ℕ)} {e : ℕ × ℕ}
    (he : e ∉ E) (w : ℕ) :
    indeg (insert e E) w = indeg E w + (if e.2 = w then 1 else 0) := by
  unfold indeg
  rw [Finset.filter_insert]
  by_cases h : e.2 = w
  · rw [if_pos h, if_pos h,
      Finset.card_insert_of_not_mem (fun hc => he (Finset.mem_filter.mp hc).1)]
  · rw [if_neg h, if_neg h, Nat.add_zero]

lemma icc_push (a b : ℕ) (h : a ≤ b + 1) :
    Finset.Icc a (b + 1) = insert (b + 1) (Finset.Icc a b) := by
  ext v
  simp only [Finset.mem_Icc, Finset.mem_insert]
  omega

/-- The initial state satisfies the invariant. -/
lemma initState_inv (n : ℕ) (hn : 2 ≤ n) : TreeInv n (initState n) := by
  refine ⟨hn, ?_, ?_, ?_, ?_, ?_, ?_, ?_, ?_, ?_, ?_, ?_, ?_, ?_, ?_⟩
  · intro q hq
    simp only [initState, List.mem_singleton] at hq
    subst hq
    exact hn
  · intro q hq
    simp only [initState, List.mem_singleton] at hq
    subst hq
    exact le_refl _
  · intro q hq
    simp only [initState, List.mem_singleton] at hq
    subst hq
    exact le_refl _
  · simp [initState]
  · simp [initState]
  · simp only [initState, List.map_cons, List.map_nil, List.sum_cons,
      List.sum_nil]
    omega
  · simp only [initState, List.map_cons, List.map_nil, List.sum_cons,
      List.sum_nil, Finset.card_empty]
    omega
  · exact le_refl _
  · show ({n + 1} : Finset ℕ) = _
    ext v
    simp only [initState, Finset.mem_singleton, Finset.mem_union,
      Finset.mem_Icc]
    omega
  · intro v _
    simp [initState, outdeg]
  · intro v hv hnq
    exfalso
    apply hnq
    simp only [initState, List.map_cons, List.map_nil, List.mem_singleton]
    simp only [Finset.mem_Icc, initState] at hv
    omega
  · intro v _
    simp [initState, outdeg]
  · intro v
    have h1 : indeg (initState n).edges v = 0 := by simp [initState, indeg]
    rw [h1]
    have h2 : v ∉ Finset.Icc 1 (initState n).lastLeaf ∪
        Finset.Icc (n + 2) (initState n).lastInternal := by
      simp only [initState, Finset.mem_union, Finset.mem_Icc]
      omega
    rw [if_neg h2]
  · intro e he
    simp [initState] at he

lemma outdeg_two_insert (ed : Finset (ℕ × ℕ)) (v c1 c2 : ℕ)
    (h1 : (v, c1) ∉ ed) (h2 : (v, c2) ∉ insert (v, c1) ed) (w : ℕ) :
    outdeg (insert (v, c2) (insert (v, c1) ed)) w =
      outdeg ed w + (if v = w then 2 else 0) := by
  rw [outdeg_insert_of_not_mem h2, outdeg_insert_of_not_mem h1]
  by_cases h : v = w <;> simp [h]

lemma indeg_two_insert (ed : Finset (ℕ × ℕ)) (v c1 c2 : ℕ)
    (h1 : (v, c1) ∉ ed) (h2 : (v, c2) ∉ insert (v, c1) ed) (w : ℕ) :
    indeg (insert (v, c2) (insert (v, c1) ed)) w =
      indeg ed w + (if c1 = w then 1 else 0) + (if c2 = w then 1 else 0) := by
  rw [indeg_insert_of_not_mem h2, indeg_insert_of_not_mem h1]

lemma card_two_insert (ed : Finset (ℕ × ℕ)) (v c1 c2 : ℕ)
    (h1 : (v, c1) ∉ ed) (h2 : (v, c2) ∉ insert (v, c1) ed) :
    (insert (v, c2) (insert (v, c1) ed)).card = ed.card + 2 := by
  rw [Finset.card_insert_of_not_mem h2, Finset.card_insert_of_not_mem h1]


set_option maxHeartbeats 2000000 in
lemma simStep_inv (n : ℕ) (rand : ℕ → ℕ) (st : BState)
    (hinv : TreeInv n st) (hq : st.queue ≠ []) :
    TreeInv n (simStep rand st) ∧ bmeasure (simStep rand st) < bmeasure st := by
  obtain ⟨nd, ed, qu, li, ll, t⟩ := st
  rcases qu with _ | ⟨⟨v, m⟩, rest⟩
  · exact absurd rfl hq
  have hm2 : 2 ≤ m := hinv.labels_ge (v, m) (List.mem_cons_self _ _)
  have hvlb : n + 1 ≤ v := hinv.ids_lb (v, m) (List.mem_cons_self _ _)
  have hvub : v ≤ li := hinv.ids_ub (v, m) (List.mem_cons_self _ _)
  have hrlab : ∀ q ∈ rest, 2 ≤ q.2 :=
    fun q hq' => hinv.labels_ge q (List.mem_cons_of_mem _ hq')
  have hrlb : ∀ q ∈ rest, n + 1 ≤ q.1 :=
    fun q hq' => hinv.ids_lb q (List.mem_cons_of_mem _ hq')
  have hrub : ∀ q ∈ rest, q.1 ≤ li :=
    fun q hq' => hinv.ids_ub q (List.mem_cons_of_mem _ hq')
  have hnodup' := hinv.ids_nodup
  rw [List.map_cons, List.nodup_cons] at hnodup'
  obtain ⟨hvrest, hrestnodup⟩ := hnodup'
  have hrmap_ub : ∀ w ∈ rest.map Prod.fst, w ≤ li := by
    intro w hw
    rcases List.mem_map.mp hw with ⟨q, hq', rfl⟩
    exact hrub q hq'
  have hleaf := hinv.leaf_sum
  simp only [List.map_cons, List.sum_cons] at hleaf
  have hint := hinv.internal_sum
  simp only [List.map_cons, List.sum_cons] at hint
  have hedge := hinv.edge_sum
  simp only [List.map_cons, List.sum_cons] at hedge
  have hroot : n + 1 ≤ li := hinv.root_lb
  have hnodes : nd = Finset.Icc 1 ll ∪ Finset.Icc (n + 1) li := hinv.nodes_eq
  have houtq : ∀ w ∈ v :: rest.map Prod.fst, outdeg ed w = 0 := by
    have h := hinv.out_queue
    simpa using h
  have houtd : ∀ w ∈ Finset.Icc (n + 1) li, w ∉ v :: rest.map Prod.fst →
      outdeg ed w = 2 := by
    have h := hinv.out_done
    simpa using h
  have houto : ∀ w, w ∉ Finset.Icc (n + 1) li → outdeg ed w = 0 :=
    hinv.out_other
  have hindeg : ∀ w, indeg ed w =
      (if w ∈ Finset.Icc 1 ll ∪ Finset.Icc (n + 2) li then 1 else 0) :=
    hinv.in_deg
  have hends : ∀ e ∈ ed, e.1 ∈ nd ∧ e.2 ∈ nd := hinv.endpoints
  have hvnd : v ∈ nd := by
    rw [hnodes]
    apply Finset.mem_union_right
    rw [Finset.mem_Icc]
    omega
  have hmleaf : ll + m ≤ n := by omega
  have hed_fresh : ∀ c : ℕ, c ∉ nd → ∀ a : ℕ, (a, c) ∉ ed :=
    fun c hc a hmem => hc (hends _ hmem).2
  have hfr_ll1 : ll + 1 ∉ nd := by
    rw [hnodes]
    simp only [Finset.mem_union, Finset.mem_Icc, not_or]
    omega
  have hfr_ll2 : ll + 1 + 1 ∉ nd := by
    rw [hnodes]
    simp only [Finset.mem_union, Finset.mem_Icc, not_or]
    omega
  have hfr_li1 : li + 1 ∉ nd := by
    rw [hnodes]
    simp only [Finset.mem_union, Finset.mem_Icc, not_or]
    omega
  have hfr_li2 : li + 1 + 1 ∉ nd := by
    rw [hnodes]
    simp only [Finset.mem_union, Finset.mem_Icc, not_or]
    omega
  simp only [simStep]
  rw [if_pos (show 1 < m by omega)]
  set s := sampleSplit m (rand t) with hsdef
  have hsge : 1 ≤ s := by
    rw [hsdef]
    unfold sampleSplit
    omega
  have hsle : s ≤ m - 1 := by
    have hmod : rand t % (m - 1) < m - 1 := Nat.mod_lt _ (by omega)
    rw [hsdef]
    unfold sampleSplit
    omega
  clear_value s
  by_cases hA : s = 1
  · subst hA
    by_cases hB : m - 1 = 1
    · -- Case A: m = 2, both children leaves
      have hmm : m = 2 := by omega
      subst hmm
      simp only [addChild, if_true]
      have he1 : (v, ll + 1) ∉ ed := hed_fresh _ hfr_ll1 v
      have he2 : (v, ll + 1 + 1) ∉ insert (v, ll + 1) ed := by
        simp only [Finset.mem_insert, Prod.mk.injEq, not_or]
        exact ⟨fun h => by omega, hed_fresh _ hfr_ll2 v⟩
      constructor
      · refine ⟨hinv.hn, hrlab, hrlb, hrub, hrestnodup, ?_, ?_, ?_, hroot,
          ?_, ?_, ?_, ?_, ?_, ?_⟩
        · dsimp only
          omega
        · dsimp only
          omega
        · dsimp only
          rw [card_two_insert ed v _ _ he1 he2]
          omega
        · dsimp only
          rw [hnodes]
          ext w
          simp only [Finset.mem_insert, Finset.mem_union, Finset.mem_Icc]
          omega
        · intro w hw
          dsimp only at hw ⊢
          rw [outdeg_two_insert ed v _ _ he1 he2 w]
          have hw0 : outdeg ed w = 0 := houtq w (List.mem_cons_of_mem _ hw)
          have hvw : v ≠ w := fun h => hvrest (h ▸ hw)
          rw [hw0, if_neg hvw]
        · intro w hwicc hwq
          dsimp only at hwicc hwq ⊢
          rw [outdeg_two_insert ed v _ _ he1 he2 w]
          by_cases hvw : v = w
          · rw [if_pos hvw]
            have hw0 : outdeg ed w = 0 := houtq w (hvw ▸ List.mem_cons_self _ _)
            omega
          · rw [if_neg hvw]
            have hw2 : outdeg ed w = 2 := by
              apply houtd w hwicc
              simp only [List.mem_cons, not_or]
              exact ⟨fun h => hvw h.symm, hwq⟩
            omega
        · intro w hw
          dsimp only at hw ⊢
          rw [outdeg_two_insert ed v _ _ he1 he2 w]
          have hvw : v ≠ w := by
            intro h
            apply hw
            rw [Finset.mem_Icc]
            omega
          rw [houto w hw, if_neg hvw]
        · intro w
          dsimp only
          rw [indeg_two_insert ed v _ _ he1 he2 w, hindeg w]
          simp only [Finset.mem_union, Finset.mem_Icc]
          split_ifs <;> omega
        · intro e he
          dsimp only at he ⊢
          simp only [Finset.mem_insert] at he
          rcases he with rfl | rfl | he
          · exact ⟨by simp [hvnd], by simp⟩
          · exact ⟨by simp [hvnd], by simp⟩
          · have h := hends e he
            simp only [Finset.mem_insert]
            exact ⟨Or.inr (Or.inr h.1), Or.inr (Or.inr h.2)⟩
      · unfold bmeasure
        dsimp only
        simp only [List.map_cons, List.sum_cons]
        omega
    · -- Case B: leaf child then internal child (label m - 1)
      have hm3 : 3 ≤ m := by omega
      simp only [addChild, if_true]
      rw [if_neg hB]
      have he1 : (v, ll + 1) ∉ ed := hed_fresh _ hfr_ll1 v
      have he2 : (v, li + 1) ∉ insert (v, ll + 1) ed := by
        simp only [Finset.mem_insert, Prod.mk.injEq, not_or]
        exact ⟨fun h => by omega, hed_fresh _ hfr_li1 v⟩
      constructor
      · refine ⟨hinv.hn, ?_, ?_, ?_, ?_, ?_, ?_, ?_, ?_, ?_, ?_, ?_, ?_,
          ?_, ?_⟩
        · intro q hq'
          dsimp only at hq' ⊢
          rcases List.mem_cons.mp hq' with rfl | hq'
          · dsimp only
            omega
          · exact hrlab q hq'
        · intro q hq'
          dsimp only at hq' ⊢
          rcases List.mem_cons.mp hq' with rfl | hq'
          · dsimp only
            omega
          · exact hrlb q hq'
        · intro q hq'
          dsimp only at hq' ⊢
          rcases List.mem_cons.mp hq' with rfl | hq'
          · dsimp only
            omega
          · have := hrub q hq'
            omega
        · dsimp only
          rw [List.map_cons, List.nodup_cons]
          refine ⟨fun hmem => ?_, hrestnodup⟩
          have := hrmap_ub _ hmem
          omega
        · dsimp only
          simp only [List.map_cons, List.sum_cons]
          omega
        · dsimp only
          simp only [List.map_cons, List.sum_cons]
          omega
        · dsimp only
          simp only [List.map_cons, List.sum_cons]
          rw [card_two_insert ed v _ _ he1 he2]
          omega
        · dsimp only
          omega
        · dsimp only
          rw [hnodes]
          ext w
          simp only [Finset.mem_insert, Finset.mem_union, Finset.mem_Icc]
          omega
        · intro w hw
          dsimp only at hw ⊢
          rw [outdeg_two_insert ed v _ _ he1 he2 w]
          rw [List.map_cons] at hw
          rcases List.mem_cons.mp hw with rfl | hw
          · have hw0 : outdeg ed (li + 1) = 0 := by
              apply houto
              rw [Finset.mem_Icc]
              omega
            rw [hw0, if_neg (show v ≠ li + 1 by omega)]
          · have hw0 : outdeg ed w = 0 := houtq w (List.mem_cons_of_mem _ hw)
            have hvw : v ≠ w := fun h => hvrest (h ▸ hw)
            rw [hw0, if_neg hvw]
        · intro w hwicc hwq
          dsimp only at hwicc hwq ⊢
          rw [outdeg_two_insert ed v _ _ he1 he2 w]
          rw [List.map_cons] at hwq
          rw [Finset.mem_Icc] at hwicc
          have hwne : w ≠ li + 1 := fun h => hwq (h ▸ List.mem_cons_self _ _)
          by_cases hvw : v = w
          · rw [if_pos hvw]
            have hw0 : outdeg ed w = 0 := houtq w (hvw ▸ List.mem_cons_self _ _)
            omega
          · rw [if_neg hvw]
            have hw2 : outdeg ed w = 2 := by
              apply houtd w
              · rw [Finset.mem_Icc]
                omega
              · simp only [List.mem_cons, not_or]
                refine ⟨fun h => hvw h.symm, fun h => hwq ?_⟩
                exact List.mem_cons_of_mem _ h
            omega
        · intro w hw
          dsimp only at hw ⊢
          rw [outdeg_two_insert ed v _ _ he1 he2 w]
          rw [Finset.mem_Icc] at hw
          have hvw : v ≠ w := by omega
          have hw0 : outdeg ed w = 0 := by
            apply houto
            rw [Finset.mem_Icc]
            omega
          rw [hw0, if_neg hvw]
        · intro w
          dsimp only
          rw [indeg_two_insert ed v _ _ he1 he2 w, hindeg w]
          simp only [Finset.mem_union, Finset.mem_Icc]
          split_ifs <;> omega
        · intro e he
          dsimp only at he ⊢
          simp only [Finset.mem_insert] at he
          rcases he with rfl | rfl | he
          · exact ⟨by simp [hvnd], by simp⟩
          · exact ⟨by simp [hvnd], by simp⟩
          · have h := hends e he
            simp only [Finset.mem_insert]
            exact ⟨Or.inr (Or.inr h.1), Or.inr (Or.inr h.2)⟩
      · unfold bmeasure
        dsimp only
        simp only [List.map_cons, List.sum_cons]
        omega
  · by_cases hB : m - s = 1
    · -- Case C: internal child (label s) then leaf child
      have hs2 : 2 ≤ s := by omega
      have hm3 : 3 ≤ m := by omega
      simp only [addChild]
      rw [if_neg hA, if_pos hB]
      dsimp only
      have he1 : (v, li + 1) ∉ ed := hed_fresh _ hfr_li1 v
      have he2 : (v, ll + 1) ∉ insert (v, li + 1) ed := by
        simp only [Finset.mem_insert, Prod.mk.injEq, not_or]
        exact ⟨fun h => by omega, hed_fresh _ hfr_ll1 v⟩
      constructor
      · refine ⟨hinv.hn, ?_, ?_, ?_, ?_, ?_, ?_, ?_, ?_, ?_, ?_, ?_, ?_,
          ?_, ?_⟩
        · intro q hq'
          dsimp only at hq' ⊢
          rcases List.mem_cons.mp hq' with rfl | hq'
          · exact hs2
          · exact hrlab q hq'
        · intro q hq'
          dsimp only at hq' ⊢
          rcases List.mem_cons.mp hq' with rfl | hq'
          · dsimp only
            omega
          · exact hrlb q hq'
        · intro q hq'
          dsimp only at hq' ⊢
          rcases List.mem_cons.mp hq' with rfl | hq'
          · dsimp only
            omega
          · have := hrub q hq'
            omega
        · dsimp only
          rw [List.map_cons, List.nodup_cons]
          refine ⟨fun hmem => ?_, hrestnodup⟩
          have := hrmap_ub _ hmem
          omega
        · dsimp only
          simp only [List.map_cons, List.sum_cons]
          omega
        · dsimp only
          simp only [List.map_cons, List.sum_cons]
          omega
        · dsimp only
          simp only [List.map_cons, List.sum_cons]
          rw [card_two_insert ed v _ _ he1 he2]
          omega
        · dsimp only
          omega
        · dsimp only
          rw [hnodes]
          ext w
          simp only [Finset.mem_insert, Finset.mem_union, Finset.mem_Icc]
          omega
        · intro w hw
          dsimp only at hw ⊢
          rw [outdeg_two_insert ed v _ _ he1 he2 w]
          rw [List.map_cons] at hw
          rcases List.mem_cons.mp hw with rfl | hw
          · have hw0 : outdeg ed (li + 1) = 0 := by
              apply houto
              rw [Finset.mem_Icc]
              omega
            rw [hw0, if_neg (show v ≠ li + 1 by omega)]
          · have hw0 : outdeg ed w = 0 := houtq w (List.mem_cons_of_mem _ hw)
            have hvw : v ≠ w := fun h => hvrest (h ▸ hw)
            rw [hw0, if_neg hvw]
        · intro w hwicc hwq
          dsimp only at hwicc hwq ⊢
          rw [outdeg_two_insert ed v _ _ he1 he2 w]
          rw [List.map_cons] at hwq
          rw [Finset.mem_Icc] at hwicc
          have hwne : w ≠ li + 1 := fun h => hwq (h ▸ List.mem_cons_self _ _)
          by_cases hvw : v = w
          · rw [if_pos hvw]
            have hw0 : outdeg ed w = 0 := houtq w (hvw ▸ List.mem_cons_self _ _)
            omega
          · rw [if_neg hvw]
            have hw2 : outdeg ed w = 2 := by
              apply houtd w
              · rw [Finset.mem_Icc]
                omega
              · simp only [List.mem_cons, not_or]
                refine ⟨fun h => hvw h.symm, fun h => hwq ?_⟩
                exact List.mem_cons_of_mem _ h
            omega
        · intro w hw
          dsimp only at hw ⊢
          rw [outdeg_two_insert ed v _ _ he1 he2 w]
          rw [Finset.mem_Icc] at hw
          have hvw : v ≠ w := by omega
          have hw0 : outdeg ed w = 0 := by
            apply houto
            rw [Finset.mem_Icc]
            omega
          rw [hw0, if_neg hvw]
        · intro w
          dsimp only
          rw [indeg_two_insert ed v _ _ he1 he2 w, hindeg w]
          simp only [Finset.mem_union, Finset.mem_Icc]
          split_ifs <;> omega
        · intro e he
          dsimp only at he ⊢
          simp only [Finset.mem_insert] at he
          rcases he with rfl | rfl | he
          · exact ⟨by simp [hvnd], by simp⟩
          · exact ⟨by simp [hvnd], by simp⟩
          · have h := hends e he
            simp only [Finset.mem_insert]
            exact ⟨Or.inr (Or.inr h.1), Or.inr (Or.inr h.2)⟩
      · unfold bmeasure
        dsimp only
        simp only [List.map_cons, List.sum_cons]
        omega
    · -- Case D: two internal children (labels s and m - s)
      have hs2 : 2 ≤ s := by omega
      have hms2 : 2 ≤ m - s := by omega
      simp only [addChild]
      rw [if_neg hA, if_neg hB]
      dsimp only
      have he1 : (v, li + 1) ∉ ed := hed_fresh _ hfr_li1 v
      have he2 : (v, li + 1 + 1) ∉ insert (v, li + 1) ed := by
        simp only [Finset.mem_insert, Prod.mk.injEq, not_or]
        exact ⟨fun h => by omega, hed_fresh _ hfr_li2 v⟩
      constructor
      · refine ⟨hinv.hn, ?_, ?_, ?_, ?_, ?_, ?_, ?_, ?_, ?_, ?_, ?_, ?_,
          ?_, ?_⟩
        · intro q hq'
          dsimp only at hq' ⊢
          rcases List.mem_cons.mp hq' with rfl | hq'
          · exact hms2
          · rcases List.mem_cons.mp hq' with rfl | hq'
            · exact hs2
            · exact hrlab q hq'
        · intro q hq'
          dsimp only at hq' ⊢
          rcases List.mem_cons.mp hq' with rfl | hq'
          · dsimp only
            omega
          · rcases List.mem_cons.mp hq' with rfl | hq'
            · dsimp only
              omega
            · exact hrlb q hq'
        · intro q hq'
          dsimp only at hq' ⊢
          rcases List.mem_cons.mp hq' with rfl | hq'
          · dsimp only
            omega
          · rcases List.mem_cons.mp hq' with rfl | hq'
            · dsimp only
              omega
            · have := hrub q hq'
              omega
        · dsimp only
          rw [List.map_cons, List.map_cons, List.nodup_cons, List.nodup_cons]
          refine ⟨?_, fun hmem => ?_, hrestnodup⟩
          · simp only [List.mem_cons, not_or]
            refine ⟨by omega, fun hmem => ?_⟩
            have := hrmap_ub _ hmem
            omega
          · have := hrmap_ub _ hmem
            omega
        · dsimp only
          simp only [List.map_cons, List.sum_cons]
          omega
        · dsimp only
          simp only [List.map_cons, List.sum_cons]
          omega
        · dsimp only
          simp only [List.map_cons, List.sum_cons]
          rw [card_two_insert ed v _ _ he1 he2]
          omega
        · dsimp only
          omega
        · dsimp only
          rw [hnodes]
          ext w
          simp only [Finset.mem_insert, Finset.mem_union, Finset.mem_Icc]
          omega
        · intro w hw
          dsimp only at hw ⊢
          rw [outdeg_two_insert ed v _ _ he1 he2 w]
          rw [List.map_cons, List.map_cons] at hw
          rcases List.mem_cons.mp hw with rfl | hw
          · have hw0 : outdeg ed (li + 1 + 1) = 0 := by
              apply houto
              rw [Finset.mem_Icc]
              omega
            rw [hw0, if_neg (show v ≠ li + 1 + 1 by omega)]
          · rcases List.mem_cons.mp hw with rfl | hw
            · have hw0 : outdeg ed (li + 1) = 0 := by
                apply houto
                rw [Finset.mem_Icc]
                omega
              rw [hw0, if_neg (show v ≠ li + 1 by omega)]
            · have hw0 : outdeg ed w = 0 := houtq w (List.mem_cons_of_mem _ hw)
              have hvw : v ≠ w := fun h => hvrest (h ▸ hw)
              rw [hw0, if_neg hvw]
        · intro w hwicc hwq
          dsimp only at hwicc hwq ⊢
          rw [outdeg_two_insert ed v _ _ he1 he2 w]
          rw [List.map_cons, List.map_cons] at hwq
          rw [Finset.mem_Icc] at hwicc
          have hwne2 : w ≠ li + 1 + 1 := fun h => hwq (h ▸ List.mem_cons_self _ _)
          have hwne1 : w ≠ li + 1 := fun h => hwq
            (h ▸ List.mem_cons_of_mem _ (List.mem_cons_self _ _))
          by_cases hvw : v = w
          · rw [if_pos hvw]
            have hw0 : outdeg ed w = 0 := houtq w (hvw ▸ List.mem_cons_self _ _)
            omega
          · rw [if_neg hvw]
            have hw2 : outdeg ed w = 2 := by
              apply houtd w
              · rw [Finset.mem_Icc]
                omega
              · simp only [List.mem_cons, not_or]
                refine ⟨fun h => hvw h.symm, fun h => hwq ?_⟩
                exact List.mem_cons_of_mem _ (List.mem_cons_of_mem _ h)
            omega
        · intro w hw
          dsimp only at hw ⊢
          rw [outdeg_two_insert ed v _ _ he1 he2 w]
          rw [Finset.mem_Icc] at hw
          have hvw : v ≠ w := by omega
          have hw0 : outdeg ed w = 0 := by
            apply houto
            rw [Finset.mem_Icc]
            omega
          rw [hw0, if_neg hvw]
        · intro w
          dsimp only
          rw [indeg_two_insert ed v _ _ he1 he2 w, hindeg w]
          simp only [Finset.mem_union, Finset.mem_Icc]
          split_ifs <;> omega
        · intro e he
          dsimp only at he ⊢
          simp only [Finset.mem_insert] at he
          rcases he with rfl | rfl | he
          · exact ⟨by simp [hvnd], by simp⟩
          · exact ⟨by simp [hvnd], by simp⟩
          · have h := hends e he
            simp only [Finset.mem_insert]
            exact ⟨Or.inr (Or.inr h.1), Or.inr (Or.inr h.2)⟩
      · unfold bmeasure
        dsimp only
        simp only [List.map_cons, List.sum_cons]
        omega


/-- Running the loop with fuel at least the remaining work empties the
queue and preserves the invariant. -/
lemma simLoop_inv (n : ℕ) (rand : ℕ → ℕ) :
    ∀ (fuel : ℕ) (st : BState), TreeInv n st → bmeasure st ≤ fuel →
      TreeInv n (simLoop rand fuel st) ∧ (simLoop rand fuel st).queue = [] := by
  intro fuel
  induction fuel with
  | zero =>
      intro st hinv hm
      rcases hq : st.queue with _ | ⟨⟨v, m⟩, rest⟩
      · exact ⟨hinv, by simp [simLoop, hq]⟩
      · exfalso
        have hm2 : 2 ≤ m := hinv.labels_ge (v, m) (by rw [hq]; exact List.mem_cons_self _ _)
        have h1 : 1 ≤ bmeasure st := by
          unfold bmeasure
          rw [hq]
          simp only [List.map_cons, List.sum_cons]
          omega
        omega
  | succ fuel ih =>
      intro st hinv hm
      rcases hq : st.queue with _ | ⟨q, rest⟩
      · have hid : simLoop rand (fuel + 1) st = st := by
          simp [simLoop, hq]
        rw [hid]
        exact ⟨hinv, hq⟩
      · have hne : st.queue ≠ [] := by
          rw [hq]
          exact List.cons_ne_nil _ _
        obtain ⟨hinv', hdec⟩ := simStep_inv n rand st hinv hne
        have hm' : bmeasure (simStep rand st) ≤ fuel := by omega
        have hstep : simLoop rand (fuel + 1) st = simLoop rand fuel (simStep rand st) := by
          simp [simLoop, hq]
        rw [hstep]
        exact ih (simStep rand st) hinv' hm'


/-- C4: for every `tipCount = n ≥ 2`, every `beta` and every random
stream, the built tree has node set `{1, .., 2n-1}` (hence `2n-1` nodes:
leaves `1..n` allocated first, internals `n+1..2n-1`), exactly `n`
leaves (out-degree-0 nodes), `2n-2` edges, every internal node of
out-degree exactly 2, the single root `n+1` of in-degree 0, every other
node of in-degree exactly 1, and every split conserves labels:
`split + (m - split) = m` with `1 ≤ split ≤ m-1`. -/
theorem simulateBetaSplitting_spec (n : ℕ) (beta : ℝ) (rand : ℕ → ℕ)
    (hn : 2 ≤ n) :
    (simulateBetaSplitting n beta rand).nodes = Finset.Icc 1 (2 * n - 1) ∧
    (simulateBetaSplitting n beta rand).nodes.card = 2 * n - 1 ∧
    ((simulateBetaSplitting n beta rand).nodes.filter
      (fun v => outdeg (simulateBetaSplitting n beta rand).edges v = 0)).card = n ∧
    (simulateBetaSplitting n beta rand).edges.card = 2 * n - 2 ∧
    (∀ v ∈ Finset.Icc 1 n, outdeg (simulateBetaSplitting n beta rand).edges v = 0) ∧
    (∀ v ∈ Finset.Icc (n + 1) (2 * n - 1),
      outdeg (simulateBetaSplitting n beta rand).edges v = 2) ∧
    indeg (simulateBetaSplitting n beta rand).edges (n + 1) = 0 ∧
    (∀ v ∈ (simulateBetaSplitting n beta rand).nodes, v ≠ n + 1 →
      indeg (simulateBetaSplitting n beta rand).edges v = 1) ∧
    (∀ v ∈ (simulateBetaSplitting n beta rand).nodes,
      indeg (simulateBetaSplitting n beta rand).edges v = 0 → v = n + 1) ∧
    (∀ m k, 2 ≤ m → sampleSplit m k + (m - sampleSplit m k) = m ∧
      1 ≤ sampleSplit m k ∧ sampleSplit m k ≤ m - 1) := by
  have h0 := initState_inv n hn
  have hm0 : bmeasure (initState n) ≤ n := by
    unfold bmeasure initState
    simp only [List.map_cons, List.map_nil, List.sum_cons, List.sum_nil]
    omega
  obtain ⟨hfin, hqe⟩ := simLoop_inv n rand n (initState n) h0 hm0
  have hLL : (simLoop rand n (initState n)).lastLeaf = n := by
    have h := hfin.leaf_sum
    rw [hqe] at h
    simpa using h
  have hLI : (simLoop rand n (initState n)).lastInternal = 2 * n - 1 := by
    have h := hfin.internal_sum
    rw [hqe] at h
    simpa using h
  have hec : (simLoop rand n (initState n)).edges.card = 2 * n - 2 := by
    have h := hfin.edge_sum
    rw [hqe] at h
    simpa using h
  have hnd : (simLoop rand n (initState n)).nodes = Finset.Icc 1 (2 * n - 1) := by
    have h := hfin.nodes_eq
    rw [hLL, hLI] at h
    rw [h]
    ext w
    simp only [Finset.mem_union, Finset.mem_Icc]
    omega
  have hteq : (simulateBetaSplitting n beta rand).nodes =
      (simLoop rand n (initState n)).nodes := rfl
  have hteqe : (simulateBetaSplitting n beta rand).edges =
      (simLoop rand n (initState n)).edges := rfl
  have hout0 : ∀ v ∈ Finset.Icc 1 n,
      outdeg (simLoop rand n (initState n)).edges v = 0 := by
    intro v hv
    rw [Finset.mem_Icc] at hv
    apply hfin.out_other
    rw [hLI, Finset.mem_Icc]
    omega
  have hout2 : ∀ v ∈ Finset.Icc (n + 1) (2 * n - 1),
      outdeg (simLoop rand n (initState n)).edges v = 2 := by
    intro v hv
    apply hfin.out_done
    · rw [hLI]
      exact hv
    · rw [hqe]
      simp
  have hin : ∀ w, indeg (simLoop rand n (initState n)).edges w =
      (if w ∈ Finset.Icc 1 n ∪ Finset.Icc (n + 2) (2 * n - 1) then 1 else 0) := by
    intro w
    have h := hfin.in_deg w
    rw [hLL, hLI] at h
    exact h
  refine ⟨hteq ▸ hnd, ?_, ?_, hteqe ▸ hec, ?_, ?_, ?_, ?_, ?_, ?_⟩
  · rw [hteq, hnd, Nat.card_Icc]
    omega
  · have hfe : (simulateBetaSplitting n beta rand).nodes.filter
        (fun v => outdeg (simulateBetaSplitting n beta rand).edges v = 0) =
        Finset.Icc 1 n := by
      rw [hteq, hteqe, hnd]
      ext w
      simp only [Finset.mem_filter, Finset.mem_Icc]
      constructor
      · rintro ⟨hw, hdeg⟩
        by_contra hcon
        have hw2 : w ∈ Finset.Icc (n + 1) (2 * n - 1) := by
          rw [Finset.mem_Icc]
          omega
        have := hout2 w hw2
        omega
      · intro hw
        refine ⟨by omega, hout0 w (by rw [Finset.mem_Icc]; exact hw)⟩
    rw [hfe, Nat.card_Icc]
    omega
  · intro v hv
    rw [hteqe]
    exact hout0 v hv
  · intro v hv
    rw [hteqe]
    exact hout2 v hv
  · rw [hteqe, hin]
    rw [if_neg]
    simp only [Finset.mem_union, Finset.mem_Icc]
    omega
  · intro v hv hvne
    rw [hteqe, hin]
    rw [hteq, hnd, Finset.mem_Icc] at hv
    rw [if_pos]
    simp only [Finset.mem_union, Finset.mem_Icc]
    omega
  · intro v hv hdeg
    rw [hteqe, hin] at hdeg
    rw [hteq, hnd, Finset.mem_Icc] at hv
    by_contra hcon
    rw [if_pos] at hdeg
    · omega
    · simp only [Finset.mem_union, Finset.mem_Icc]
      omega
  · intro m k hm
    have hmod : k % (m - 1) < m - 1 := Nat.mod_lt _ (by omega)
    unfold sampleSplit
    omega

/-- Witness for C4 at `n = 3`, `beta = 0`, a constant stream. -/
theorem simulateBetaSplitting_spec_witness :
    2 ≤ 3 ∧
    ((simulateBetaSplitting 3 0 (fun _ => 0)).nodes = Finset.Icc 1 (2 * 3 - 1) ∧
    (simulateBetaSplitting 3 0 (fun _ => 0)).nodes.card = 2 * 3 - 1 ∧
    ((simulateBetaSplitting 3 0 (fun _ => 0)).nodes.filter
      (fun v => outdeg (simulateBetaSplitting 3 0 (fun _ => 0)).edges v = 0)).card = 3 ∧
    (simulateBetaSplitting 3 0 (fun _ => 0)).edges.card = 2 * 3 - 2 ∧
    (∀ v ∈ Finset.Icc 1 3,
      outdeg (simulateBetaSplitting 3 0 (fun _ => 0)).edges v = 0) ∧
    (∀ v ∈ Finset.Icc (3 + 1) (2 * 3 - 1),
      outdeg (simulateBetaSplitting 3 0 (fun _ => 0)).edges v = 2) ∧
    indeg (simulateBetaSplitting 3 0 (fun _ => 0)).edges (3 + 1) = 0 ∧
    (∀ v ∈ (simulateBetaSplitting 3 0 (fun _ => 0)).nodes, v ≠ 3 + 1 →
      indeg (simulateBetaSplitting 3 0 (fun _ => 0)).edges v = 1) ∧
    (∀ v ∈ (simulateBetaSplitting 3 0 (fun _ => 0)).nodes,
      indeg (simulateBetaSplitting 3 0 (fun _ => 0)).edges v = 0 → v = 3 + 1) ∧
    (∀ m k, 2 ≤ m → sampleSplit m k + (m - sampleSplit m k) = m ∧
      1 ≤ sampleSplit m k ∧ sampleSplit m k ≤ m - 1)) :=
  ⟨by norm_num, simulateBetaSplitting_spec 3 0 (fun _ => 0) (by norm_num)⟩

/-! ### Claim C9: fresh node identifiers, never reused -/

/-- The tree's node set, needed for the id-numbering part of C9. -/
lemma simulateBetaSplitting_nodes (n : ℕ) (beta : ℝ) (rand : ℕ → ℕ)
    (hn : 2 ≤ n) :
    (simulateBetaSplitting n beta rand).nodes = Finset.Icc 1 (2 * n - 1) := by
  have h0 := initState_inv n hn
  have hm0 : bmeasure (initState n) ≤ n := by
    unfold bmeasure initState
    simp only [List.map_cons, List.map_nil, List.sum_cons, List.sum_nil]
    omega
  obtain ⟨hfin, hqe⟩ := simLoop_inv n rand n (initState n) h0 hm0
  have hLL : (simLoop rand n (initState n)).lastLeaf = n := by
    have h := hfin.leaf_sum
    rw [hqe] at h
    simpa using h
  have hLI : (simLoop rand n (initState n)).lastInternal = 2 * n - 1 := by
    have h := hfin.internal_sum
    rw [hqe] at h
    simpa using h
  have h := hfin.nodes_eq
  rw [hLL, hLI] at h
  show (simLoop rand n (initState n)).nodes = _
  rw [h]
  ext w
  simp only [Finset.mem_union, Finset.mem_Icc]
  omega

/-- Every insertion of the mutation loop adds exactly the two nodes
`max+1` and `max+2` of the current graph. -/
lemma GenerateNetwork_step_nodes (net : Network) (method : Option ℚ)
    (rand : ℕ → ℕ) (randQ : ℕ → ℚ) (coin : ℕ → Bool)
    (stepFuel tryFuel : ℕ) (hend : EndpointsOk net)
    (hne : net.edges.Nonempty) (i : ℕ) :
    (GenerateNetwork net (i + 1) method rand randQ coin stepFuel tryFuel).nodes =
      (GenerateNetwork net i method rand randQ coin stepFuel tryFuel).nodes ∪
        {freshX (GenerateNetwork net i method rand randQ coin stepFuel tryFuel),
         freshY (GenerateNetwork net i method rand randQ coin stepFuel tryFuel)} := by
  obtain ⟨ih1, ih2, _, _⟩ := GenerateNetwork_inv net method rand randQ coin
    stepFuel tryFuel hend hne i
  rcases method with _ | q
  · have hm1 := pickD_edgeList_mem _ ih2 (rand (2 * i))
    have hm2 := pickD_edgeList_mem _ ih2 (rand (2 * i + 1))
    simp only [GenerateNetwork, AddEdgeUniform]
    exact (AddEdgeBetween_spec _ _ _ (randQ (2 * i)) (randQ (2 * i + 1))
      ih1 hm1 hm2).1
  · have hp := tryLoop_mem _ ih2 (fun k => rand (Nat.pair i k))
      (fun k => coin (Nat.pair i k)) stepFuel (tryFuel + 1) 0 (by omega)
    simp only [GenerateNetwork, AddEdgeLocal]
    exact (AddEdgeBetween_spec _ _ _ (randQ (2 * i)) (randQ (2 * i + 1))
      ih1 hp.1 hp.2).1

/-- C9: a single insertion allocates exactly the node ids
`max(nodes)+1` and `max(nodes)+2`, which are fresh; the tree builder
numbers its nodes `1..2n-1` (leaves first); and along a whole run every
insertion extends the node set by its two fresh ids, so ids are never
reused.  Stated for either selector, any streams and any fuels. -/
theorem fresh_node_ids_spec (net : Network) (e1 e2 : ℕ × ℕ) (u1 u2 : ℚ)
    (method : Option ℚ) (rand randT : ℕ → ℕ) (randQ : ℕ → ℚ)
    (coin : ℕ → Bool) (stepFuel tryFuel n : ℕ) (beta : ℝ)
    (hend : EndpointsOk net) (hne : net.edges.Nonempty)
    (h1 : e1 ∈ net.edges) (h2 : e2 ∈ net.edges) (hn : 2 ≤ n) :
    ((AddEdgeBetween net e1 e2 u1 u2 none).nodes =
        net.nodes ∪ {freshX net, freshY net} ∧
      freshX net ∉ net.nodes ∧ freshY net ∉ net.nodes ∧
      freshX net ≠ freshY net) ∧
    (simulateBetaSplitting n beta randT).nodes = Finset.Icc 1 (2 * n - 1) ∧
    (∀ i : ℕ,
      (GenerateNetwork net (i + 1) method rand randQ coin stepFuel tryFuel).nodes =
        (GenerateNetwork net i method rand randQ coin stepFuel tryFuel).nodes ∪
          {freshX (GenerateNetwork net i method rand randQ coin stepFuel tryFuel),
           freshY (GenerateNetwork net i method rand randQ coin stepFuel tryFuel)} ∧
      freshX (GenerateNetwork net i method rand randQ coin stepFuel tryFuel) ∉
        (GenerateNetwork net i method rand randQ coin stepFuel tryFuel).nodes ∧
      freshY (GenerateNetwork net i method rand randQ coin stepFuel tryFuel) ∉
        (GenerateNetwork net i method rand randQ coin stepFuel tryFuel).nodes) := by
  refine ⟨⟨(AddEdgeBetween_spec net e1 e2 u1 u2 hend h1 h2).1,
    freshX_not_mem net, freshY_not_mem net, by unfold freshX freshY; omega⟩,
    simulateBetaSplitting_nodes n beta randT hn, ?_⟩
  intro i
  exact ⟨GenerateNetwork_step_nodes net method rand randQ coin stepFuel
      tryFuel hend hne i,
    freshX_not_mem _, freshY_not_mem _⟩

/-- Witness for C9 on the 2-tip tree. -/
theorem fresh_node_ids_spec_witness :
    ((AddEdgeBetween tnet (3, 1) (3, 2) 0 0 none).nodes =
        tnet.nodes ∪ {freshX tnet, freshY tnet} ∧
      freshX tnet ∉ tnet.nodes ∧ freshY tnet ∉ tnet.nodes ∧
      freshX tnet ≠ freshY tnet) ∧
    (simulateBetaSplitting 2 0 (fun _ => 0)).nodes = Finset.Icc 1 (2 * 2 - 1) ∧
    (∀ i : ℕ,
      (GenerateNetwork tnet (i + 1) none (fun _ => 0) (fun _ => 0)
        (fun _ => true) 1 1).nodes =
        (GenerateNetwork tnet i none (fun _ => 0) (fun _ => 0)
          (fun _ => true) 1 1).nodes ∪
          {freshX (GenerateNetwork tnet i none (fun _ => 0) (fun _ => 0)
            (fun _ => true) 1 1),
           freshY (GenerateNetwork tnet i none (fun _ => 0) (fun _ => 0)
            (fun _ => true) 1 1)} ∧
      freshX (GenerateNetwork tnet i none (fun _ => 0) (fun _ => 0)
        (fun _ => true) 1 1) ∉
        (GenerateNetwork tnet i none (fun _ => 0) (fun _ => 0)
          (fun _ => true) 1 1).nodes ∧
      freshY (GenerateNetwork tnet i none (fun _ => 0) (fun _ => 0)
        (fun _ => true) 1 1) ∉
        (GenerateNetwork tnet i none (fun _ => 0) (fun _ => 0)
          (fun _ => true) 1 1).nodes) :=
  fresh_node_ids_spec tnet (3, 1) (3, 2) 0 0 none (fun _ => 0) (fun _ => 0)
    (fun _ => 0) (fun _ => true) 1 1 2 0 (by decide) ⟨(3, 1), by decide⟩
    (by decide) (by decide) (by decide)

end BetaSplit
